import Mathlib

/-!
Verification of the haunteed maze-chase game core against its
natural-language specification.

The development shallowly embeds the Go source:
  * `internal/floor` (item grid, `ItemAt`, `EatItem`, `BreakWall`,
    `placePowerPellets`, `ghostInterval`),
  * `internal/dweller` (ghost step resolution: `canMoveTo`,
    `validDirectionsExcludingOpposite`, `findBestDirections`,
    `moveToTarget`, `MoveGhosts`),
  * `internal/score` (`AddGhostPoints`, `ResetGhostStreak`),
  * `internal/ambilite` (`Intensity`, `interpolate`),
  * `internal/app` (`setFloorVisibility`).

Go machine integers are modelled as `Int` (the reachable values never
approach the 64-bit range), Go float64 values occurring in `ambilite` and
the visibility computation are modelled as `ℚ`, and fallible operations
(`ItemAt`, timezone lookup) return `Option`/`Bool` flags.  Randomness
(`rng.Intn n`) is modelled by an arbitrary `choice : Nat` reduced mod `n`,
and wall-clock checks by explicit boolean inputs.
-/

namespace Haunteed

/-- Tile kinds of the floor item grid, from `internal/floor` (Go `ItemType`:
`Wall, CrumblingWall, Dot, Empty, PowerPellet, Start, End, Fuse`). -/
inductive ItemType where
  | wall
  | crumblingWall
  | dot
  | empty
  | powerPellet
  | start
  | ende
  | fuse
deriving DecidableEq, Repr

/-- The floor item grid `Items [][]ItemType`, indexed `items[y][x]`. -/
abbrev Grid := List (List ItemType)

/-- Read the cell `g[y][x]`; out-of-range reads default to `wall`
(they only occur under bounds checks in the embedded operations). -/
def cellAt (g : Grid) (x y : Nat) : ItemType :=
  (g.getD y []).getD x ItemType.wall

/-- Write the cell `g[y][x] := v` (Go `f.Items[y][x] = v`). -/
def setCell (g : Grid) (x y : Nat) (v : ItemType) : Grid :=
  g.set y ((g.getD y []).set x v)

/-- A floor: maze dimensions plus the item grid (the fields of Go
`floor.Floor` relevant to grid operations). -/
structure Floor where
  width : Nat
  height : Nat
  items : Grid
deriving DecidableEq, Repr

/-- Grid well-formedness: the item grid has exactly `height` rows of
`width` cells, as produced by `newItems`. -/
def Floor.WF (f : Floor) : Prop :=
  f.items.length = f.height ∧ ∀ row ∈ f.items, row.length = f.width

/-- Source `Floor.ItemAt` from `internal/floor`: bounds-checked read; the Go
`(ItemType, error)` pair is modelled as an `Option`. -/
def itemAt (f : Floor) (x y : Int) : Option ItemType :=
  if x < 0 ∨ (f.width : Int) ≤ x ∨ y < 0 ∨ (f.height : Int) ≤ y then
    none
  else
    some (cellAt f.items x.toNat y.toNat)

/-- Source `Floor.EatItem` from `internal/floor`: returns the original tile and
replaces a dot or power pellet with empty space; the Go mutation is
modelled by returning the updated floor. -/
def eatItem (f : Floor) (x y : Int) : ItemType × Floor :=
  if x < 0 ∨ (f.width : Int) ≤ x ∨ y < 0 ∨ (f.height : Int) ≤ y then
    (ItemType.empty, f)
  else
    let originalTile := cellAt f.items x.toNat y.toNat
    if originalTile = ItemType.dot ∨ originalTile = ItemType.powerPellet then
      (originalTile, { f with items := setCell f.items x.toNat y.toNat ItemType.empty })
    else
      (originalTile, f)

/-- Source `Floor.BreakWall` from `internal/floor`: bounds-checked, then sets the
cell to empty space unconditionally. -/
def breakWall (f : Floor) (x y : Int) : Floor :=
  if x < 0 ∨ (f.width : Int) ≤ x ∨ y < 0 ∨ (f.height : Int) ≤ y then
    f
  else
    { f with items := setCell f.items x.toNat y.toNat ItemType.empty }

theorem getD_set_self {α : Type} (l : List α) (i : Nat) (v d : α)
    (h : i < l.length) : (l.set i v).getD i d = v := by
  rw [List.getD_eq_getElem?_getD, List.getElem?_set_self (by simpa using h)]
  rfl

theorem getD_set_of_ne {α : Type} (l : List α) (i j : Nat) (v d : α)
    (h : j ≠ i) : (l.set i v).getD j d = l.getD j d := by
  rw [List.getD_eq_getElem?_getD, List.getD_eq_getElem?_getD,
    List.getElem?_set_ne (by omega)]

theorem cellAt_setCell_self (g : Grid) (x y : Nat) (v : ItemType)
    (hy : y < g.length) (hx : x < (g.getD y []).length) :
    cellAt (setCell g x y v) x y = v := by
  unfold cellAt setCell
  rw [getD_set_self g y _ [] hy, getD_set_self _ x _ _ hx]

theorem cellAt_setCell_of_ne (g : Grid) (x y u v : Nat) (w : ItemType)
    (h : ¬(u = x ∧ v = y)) :
    cellAt (setCell g x y w) u v = cellAt g u v := by
  unfold cellAt setCell
  rcases eq_or_ne v y with rfl | hv
  · have hu : u ≠ x := fun hux => h ⟨hux, rfl⟩
    by_cases hy : v < g.length
    · rw [getD_set_self g v _ [] hy, getD_set_of_ne _ x u _ _ hu]
    · rw [List.set_eq_of_length_le (by omega)]
  · rw [getD_set_of_ne g y v _ [] hv]

theorem Floor.WF.items_len {f : Floor} (h : f.WF) : f.items.length = f.height :=
  h.1

theorem Floor.WF.row_len {f : Floor} (h : f.WF) {y : Nat}
    (hy : y < f.items.length) : (f.items.getD y []).length = f.width := by
  have hmem : f.items.getD y [] ∈ f.items := by
    rw [List.getD_eq_getElem?_getD, List.getElem?_eq_getElem hy]
    exact List.getElem_mem hy
  exact h.2 _ hmem

/-- The conclusion of claim C4 for a floor `f` and in-bounds `(x, y)`:
`EatItem` returns the current kind, empties the cell exactly for dot and
power-pellet kinds (leaving the rest of the grid intact), a second call
returns empty space after a dot or pellet was eaten, and the operation is
idempotent on the grid after the first call. -/
def EatItemClaim (f : Floor) (x y : Int) : Prop :=
  (eatItem f x y).1 = cellAt f.items x.toNat y.toNat ∧
  ((cellAt f.items x.toNat y.toNat = ItemType.dot ∨
      cellAt f.items x.toNat y.toNat = ItemType.powerPellet) →
    cellAt (eatItem f x y).2.items x.toNat y.toNat = ItemType.empty ∧
    (eatItem (eatItem f x y).2 x y).1 = ItemType.empty) ∧
  (¬(cellAt f.items x.toNat y.toNat = ItemType.dot ∨
      cellAt f.items x.toNat y.toNat = ItemType.powerPellet) →
    (eatItem f x y).2 = f) ∧
  (∀ u v : Nat, ¬(u = x.toNat ∧ v = y.toNat) →
    cellAt (eatItem f x y).2.items u v = cellAt f.items u v) ∧
  (eatItem (eatItem f x y).2 x y).2 = (eatItem f x y).2

/-- C4: for every well-formed floor and in-bounds coordinate, `EatItem`
returns the cell's current kind and empties the cell if and only if that
kind is a dot or power pellet; for every other kind the grid is unchanged
and the kind is returned as-is; after a dot or pellet was eaten a second
call returns empty space, and the second call never changes the grid
further (idempotence after the first call). -/
theorem eatItem_spec (f : Floor) (x y : Int) (hwf : f.WF)
    (hx0 : 0 ≤ x) (hx1 : x < (f.width : Int))
    (hy0 : 0 ≤ y) (hy1 : y < (f.height : Int)) :
    EatItemClaim f x y := by
  have hb : ¬(x < 0 ∨ (f.width : Int) ≤ x ∨ y < 0 ∨ (f.height : Int) ≤ y) := by
    omega
  have hylen : y.toNat < f.items.length := by
    rw [hwf.items_len]; omega
  have hxlen : x.toNat < (f.items.getD y.toNat []).length := by
    rw [hwf.row_len hylen]; omega
  by_cases hc : cellAt f.items x.toNat y.toNat = ItemType.dot ∨
      cellAt f.items x.toNat y.toNat = ItemType.powerPellet
  · have h1 : eatItem f x y =
        (cellAt f.items x.toNat y.toNat,
          { f with items := setCell f.items x.toNat y.toNat ItemType.empty }) := by
      rw [eatItem, if_neg hb]
      simp only [if_pos hc]
    have hcell : cellAt (setCell f.items x.toNat y.toNat ItemType.empty)
        x.toNat y.toNat = ItemType.empty :=
      cellAt_setCell_self _ _ _ _ hylen hxlen
    have h2 : eatItem { f with items := setCell f.items x.toNat y.toNat ItemType.empty } x y =
        (ItemType.empty,
          { f with items := setCell f.items x.toNat y.toNat ItemType.empty }) := by
      rw [eatItem, if_neg hb]
      simp only [hcell]
      rw [if_neg (by simp)]
    refine ⟨by rw [h1], fun _ => ⟨by rw [h1]; exact hcell, by rw [h1, h2]⟩,
      fun hnc => absurd hc hnc, fun u v huv => ?_, by rw [h1, h2]⟩
    rw [h1]
    exact cellAt_setCell_of_ne _ _ _ _ _ _ huv
  · have h1 : eatItem f x y = (cellAt f.items x.toNat y.toNat, f) := by
      rw [eatItem, if_neg hb]
      simp only [if_neg hc]
    refine ⟨by rw [h1], fun hcc => absurd hcc hc, fun _ => by rw [h1],
      fun u v _ => by rw [h1], ?_⟩
    rw [h1, h1]

/-- Concrete 2-by-1 floor holding a dot and a wall, used as a witness
input. -/
def dotFloor : Floor :=
  { width := 2, height := 1, items := [[ItemType.dot, ItemType.wall]] }

/-- Witness for C4 at the dot cell of `dotFloor`. -/
theorem eatItem_spec_witness :
    (dotFloor.WF ∧ (0 : Int) ≤ 0 ∧ (0 : Int) < (dotFloor.width : Int) ∧
      (0 : Int) ≤ 0 ∧ (0 : Int) < (dotFloor.height : Int)) ∧
    EatItemClaim dotFloor 0 0 :=
  ⟨⟨by constructor <;> decide, by decide, by decide, by decide, by decide⟩,
    eatItem_spec dotFloor 0 0 (by constructor <;> decide)
      (by decide) (by decide) (by decide) (by decide)⟩

/-- Concrete 1-by-1 floor holding a plain wall. -/
def wallOnlyFloor : Floor :=
  { width := 1, height := 1, items := [[ItemType.wall]] }

/-- C5 counterexample: `BreakWall` does not leave non-crumbling cells
unchanged; on a plain wall cell it also converts the cell to empty
space, because the code empties the target cell without inspecting its
kind. -/
theorem breakWall_changes_wall_cell :
    itemAt wallOnlyFloor 0 0 = some ItemType.wall ∧
    itemAt (breakWall wallOnlyFloor 0 0) 0 0 = some ItemType.empty := by
  constructor <;> decide

/-- The conclusion of the amended claim C5: `BreakWall` empties the
in-bounds target cell (in particular it converts a crumbling wall to empty
space), leaves every other cell unchanged, and neither `BreakWall` nor
`EatItem` ever writes `crumblingWall`, so an open cell never reverts. -/
def BreakWallClaim (f : Floor) (x y : Int) : Prop :=
  cellAt (breakWall f x y).items x.toNat y.toNat = ItemType.empty ∧
  (∀ u v : Nat, ¬(u = x.toNat ∧ v = y.toNat) →
    cellAt (breakWall f x y).items u v = cellAt f.items u v) ∧
  (∀ u v : Nat, cellAt f.items u v ≠ ItemType.crumblingWall →
    cellAt (breakWall f x y).items u v ≠ ItemType.crumblingWall) ∧
  (∀ u v : Nat, cellAt f.items u v ≠ ItemType.crumblingWall →
    cellAt (eatItem f x y).2.items u v ≠ ItemType.crumblingWall)

/-- C5 (amended): for every well-formed floor and in-bounds coordinate,
`BreakWall` sets the target cell to empty space (converting a crumbling
wall to open passage), leaves all other cells unchanged, and no grid
mutation of the floor (`BreakWall` or `EatItem`) ever turns a
non-crumbling cell into a crumbling wall. -/
theorem breakWall_spec (f : Floor) (x y : Int) (hwf : f.WF)
    (hx0 : 0 ≤ x) (hx1 : x < (f.width : Int))
    (hy0 : 0 ≤ y) (hy1 : y < (f.height : Int)) :
    BreakWallClaim f x y := by
  have hb : ¬(x < 0 ∨ (f.width : Int) ≤ x ∨ y < 0 ∨ (f.height : Int) ≤ y) := by
    omega
  have hylen : y.toNat < f.items.length := by
    rw [hwf.items_len]; omega
  have hxlen : x.toNat < (f.items.getD y.toNat []).length := by
    rw [hwf.row_len hylen]; omega
  have hbr : breakWall f x y =
      { f with items := setCell f.items x.toNat y.toNat ItemType.empty } := by
    rw [breakWall, if_neg hb]
  refine ⟨by rw [hbr]; exact cellAt_setCell_self _ _ _ _ hylen hxlen,
    fun u v huv => by rw [hbr]; exact cellAt_setCell_of_ne _ _ _ _ _ _ huv,
    fun u v hcw => ?_, fun u v hcw => ?_⟩
  · rw [hbr]
    by_cases huv : u = x.toNat ∧ v = y.toNat
    · rw [huv.1, huv.2, cellAt_setCell_self _ _ _ _ hylen hxlen]
      simp
    · rw [cellAt_setCell_of_ne _ _ _ _ _ _ huv]
      exact hcw
  · by_cases hc : cellAt f.items x.toNat y.toNat = ItemType.dot ∨
        cellAt f.items x.toNat y.toNat = ItemType.powerPellet
    · have h1 : (eatItem f x y).2 =
          { f with items := setCell f.items x.toNat y.toNat ItemType.empty } := by
        rw [eatItem, if_neg hb]
        simp only [if_pos hc]
      rw [h1]
      by_cases huv : u = x.toNat ∧ v = y.toNat
      · rw [huv.1, huv.2, cellAt_setCell_self _ _ _ _ hylen hxlen]
        simp
      · rw [cellAt_setCell_of_ne _ _ _ _ _ _ huv]
        exact hcw
    · have h1 : (eatItem f x y).2 = f := by
        rw [eatItem, if_neg hb]
        simp only [if_neg hc]
      rw [h1]
      exact hcw

/-- Concrete 2-by-1 floor holding a crumbling wall and an open cell. -/
def crumblingFloor : Floor :=
  { width := 2, height := 1, items := [[ItemType.crumblingWall, ItemType.empty]] }

/-- Witness for the amended C5 at the crumbling-wall cell of
`crumblingFloor`. -/
theorem breakWall_spec_witness :
    (crumblingFloor.WF ∧ (0 : Int) ≤ 0 ∧ (0 : Int) < (crumblingFloor.width : Int) ∧
      (0 : Int) ≤ 0 ∧ (0 : Int) < (crumblingFloor.height : Int)) ∧
    BreakWallClaim crumblingFloor 0 0 :=
  ⟨⟨by constructor <;> decide, by decide, by decide, by decide, by decide⟩,
    breakWall_spec crumblingFloor 0 0 (by constructor <;> decide)
      (by decide) (by decide) (by decide) (by decide)⟩

/-- Go `abs` helper (identical in the floor and dweller packages). -/
def goAbs (x : Int) : Int :=
  if x < 0 then -x else x

/-- Default ghost tick interval for the first floor, in nanoseconds
(`500 * time.Millisecond`). -/
def defaultGhostTickInterval : Int := 500 * 1000000

/-- Minimum ghost tick interval, in nanoseconds (`400 * time.Millisecond`). -/
def minGhostTickInterval : Int := 400 * 1000000

/-- Ghost tick interval decrease step, in nanoseconds
(`10 * time.Millisecond`). -/
def stepGhostTickInterval : Int := 10 * 1000000

/-- Source `ghostInterval` from `internal/floor/fill.go`: the ghost movement
interval for a floor index, clamped below at the minimum. -/
def ghostInterval (floor : Int) : Int :=
  let calculated := defaultGhostTickInterval - goAbs floor * stepGhostTickInterval
  if calculated < minGhostTickInterval then minGhostTickInterval else calculated

/-- C9: for every floor index the agent movement tick interval equals the
larger of 400ms and 500ms minus 10ms per unit of absolute floor depth, it
always lies between 400ms and 500ms, and it is non-increasing as the
absolute depth grows. -/
theorem ghostInterval_spec (i j : Int) :
    ghostInterval i =
      max minGhostTickInterval (defaultGhostTickInterval - goAbs i * stepGhostTickInterval) ∧
    minGhostTickInterval ≤ ghostInterval i ∧
    ghostInterval i ≤ defaultGhostTickInterval ∧
    (goAbs i ≤ goAbs j → ghostInterval j ≤ ghostInterval i) := by
  have habs : ∀ x : Int, 0 ≤ goAbs x := by
    intro x
    unfold goAbs
    split <;> omega
  have hi := habs i
  have hj := habs j
  unfold ghostInterval defaultGhostTickInterval minGhostTickInterval stepGhostTickInterval
  simp only
  constructor
  · split <;> omega
  refine ⟨by split <;> omega, by split <;> nlinarith [hi], fun hij => ?_⟩
  split <;> split <;> nlinarith [hi, hj]

/-- Witness for C9 at floors 3 and -7. -/
theorem ghostInterval_spec_witness :
    goAbs 3 ≤ goAbs (-7) ∧ ghostInterval (-7) ≤ ghostInterval 3 :=
  ⟨by decide, (ghostInterval_spec 3 (-7)).2.2.2 (by decide)⟩

/-- Player score state from `internal/score`: the running value and the
consecutive ghost-capture streak within one frightened window. -/
structure Score where
  value : Int
  eatenGhostsStreak : Nat
deriving DecidableEq, Repr

/-- Source `Score.AddGhostPoints`: award `200 << eatenGhostsStreak` points and
advance the streak, which saturates at 3. -/
def addGhostPoints (s : Score) : Score :=
  { value := s.value + 200 * 2 ^ s.eatenGhostsStreak
    eatenGhostsStreak :=
      if s.eatenGhostsStreak < 3 then s.eatenGhostsStreak + 1
      else s.eatenGhostsStreak }

/-- Source `Score.ResetGhostStreak`: called when the frightened window ends. -/
def resetGhostStreak (s : Score) : Score :=
  { s with eatenGhostsStreak := 0 }

theorem addGhostPoints_streak_step (t : Score) :
    (addGhostPoints t).eatenGhostsStreak =
      if t.eatenGhostsStreak < 3 then t.eatenGhostsStreak + 1
      else t.eatenGhostsStreak :=
  rfl

theorem addGhostPoints_value_step (t : Score) :
    (addGhostPoints t).value = t.value + 200 * 2 ^ t.eatenGhostsStreak :=
  rfl

theorem addGhostPoints_streak (s : Score) (k : Nat)
    (h : s.eatenGhostsStreak = 0) :
    (addGhostPoints^[k] s).eatenGhostsStreak = min k 3 := by
  induction k with
  | zero => simpa using h
  | succ n ih =>
    rw [Function.iterate_succ_apply', addGhostPoints_streak_step, ih]
    split <;> omega

/-- C8: within one frightened window (after `ResetGhostStreak`), the
(k+1)-st consecutive ghost capture adds exactly `200 * 2 ^ min k 3`
points — 200, 400, 800, 1600, then 1600 for every further capture — and
the first capture after a streak reset always awards the 200 base value. -/
theorem addGhostPoints_spec (s : Score) (k : Nat) :
    (addGhostPoints^[k + 1] (resetGhostStreak s)).value =
      (addGhostPoints^[k] (resetGhostStreak s)).value + 200 * 2 ^ min k 3 ∧
    (addGhostPoints (resetGhostStreak s)).value = (resetGhostStreak s).value + 200 := by
  constructor
  · have hs : (addGhostPoints^[k] (resetGhostStreak s)).eatenGhostsStreak = min k 3 :=
      addGhostPoints_streak _ _ rfl
    rw [Function.iterate_succ_apply', addGhostPoints_value_step, hs]
  · rw [addGhostPoints_value_step]
    norm_num [resetGhostStreak]

/-- Solar-day inputs for one invocation of `Intensity`: the
dawn/sunrise/sunset/dusk crossing times found by `findSolarEventOptional`
(with their found flags) and the solar altitude at local noon, all
computed by the floating-point astronomy in `internal/ambilite` and
treated here as oracle inputs; times are rationals on a single local-day
axis and altitudes are in degrees. -/
structure SolarDay where
  dawn : ℚ
  dawnOk : Bool
  sunrise : ℚ
  sunset : ℚ
  dusk : ℚ
  duskOk : Bool
  noonAlt : ℚ

/-- Source `interpolate` from `internal/ambilite`: linear from 0 to 1 between
`start` and `stop`, clamped, and 1 when the interval is empty or
reversed. -/
def interpolate (start stop current : ℚ) : ℚ :=
  if ¬start < stop then 1
  else max 0 (min 1 ((current - start) / (stop - start)))

/-- Source `Intensity` from `internal/ambilite`: the timezone lookup result is the
flag `tzOk` (a failed `time.LoadLocation` gives `false`), and the solar
events of the local day are the `SolarDay` oracle. -/
def intensity (tzOk : Bool) (d : SolarDay) (now : ℚ) : ℚ :=
  if tzOk = false then 0
  else if d.dawnOk = false ∨ d.duskOk = false ∨ d.dusk < d.dawn then
    if -6 < d.noonAlt then 1 else 0
  else if now < d.dawn then 0
  else if now < d.sunrise then interpolate d.dawn d.sunrise now
  else if now < d.sunset then 1
  else if now < d.dusk then 1 - interpolate d.sunset d.dusk now
  else 0

theorem interpolate_nonneg (a b c : ℚ) : 0 ≤ interpolate a b c := by
  unfold interpolate
  split
  · norm_num
  · exact le_max_left 0 _

theorem interpolate_le_one (a b c : ℚ) : interpolate a b c ≤ 1 := by
  unfold interpolate
  split
  · exact le_refl 1
  · exact max_le (by norm_num) (min_le_left 1 _)

/-- C10: when the timezone string does not name a loadable location,
`Intensity` returns exactly 0.0 (night) without signaling an error, for
every time and every solar-day input. -/
theorem intensity_bad_timezone (d : SolarDay) (now : ℚ) :
    intensity false d now = 0 := by
  rfl

/-- The conclusion of claim C6 for given inputs: `Intensity` stays in
`[0, 1]`; on a day without a civil-twilight crossing (or dawn after dusk)
it is exactly 1 when the noon altitude exceeds -6 degrees and exactly 0
otherwise; and on an ordered day it is 0 before dawn, the linear ramp up
between dawn and sunrise, 1 between sunrise and sunset, the linear ramp
down between sunset and dusk, and 0 after dusk. -/
def IntensityClaim (d : SolarDay) (now : ℚ) : Prop :=
  (∀ b : Bool, 0 ≤ intensity b d now ∧ intensity b d now ≤ 1) ∧
  ((d.dawnOk = false ∨ d.duskOk = false ∨ d.dusk < d.dawn) →
    intensity true d now = if -6 < d.noonAlt then 1 else 0) ∧
  (d.dawnOk = true → d.duskOk = true →
    d.dawn ≤ d.sunrise → d.sunrise ≤ d.sunset → d.sunset ≤ d.dusk →
    ((now < d.dawn → intensity true d now = 0) ∧
     (d.dawn ≤ now → now < d.sunrise →
       intensity true d now = (now - d.dawn) / (d.sunrise - d.dawn)) ∧
     (d.sunrise ≤ now → now < d.sunset → intensity true d now = 1) ∧
     (d.sunset ≤ now → now < d.dusk →
       intensity true d now = 1 - (now - d.sunset) / (d.dusk - d.sunset)) ∧
     (d.dusk ≤ now → intensity true d now = 0)))

/-- C6: `Intensity` always lies in `[0, 1]`; with no civil-twilight
crossing (or dawn after dusk) it is exactly 1 when the local-noon solar
altitude exceeds -6 degrees and exactly 0 otherwise; and on a day with
ordered crossings it is 0 before dawn, ramps linearly from 0 to 1 between
dawn and sunrise, is 1 between sunrise and sunset, ramps linearly from 1
to 0 between sunset and dusk, and is 0 after dusk. -/
theorem intensity_spec (d : SolarDay) (now : ℚ) : IntensityClaim d now := by
  have hinterp : ∀ a b c : ℚ, a ≤ c → c < b →
      interpolate a b c = (c - a) / (b - a) := by
    intro a b c hac hcb
    unfold interpolate
    rw [if_neg (by push_neg; linarith)]
    have hab : 0 < b - a := by linarith
    have h0 : 0 ≤ (c - a) / (b - a) := div_nonneg (by linarith) (le_of_lt hab)
    have h1 : (c - a) / (b - a) < 1 := by
      rw [div_lt_one hab]
      linarith
    rw [min_eq_right (le_of_lt h1), max_eq_right h0]
  refine ⟨?_, ?_, ?_⟩
  · intro b
    unfold intensity
    split
    · norm_num
    split
    · split <;> norm_num
    split
    · norm_num
    split
    · exact ⟨interpolate_nonneg _ _ _, interpolate_le_one _ _ _⟩
    split
    · norm_num
    split
    · constructor
      · have := interpolate_le_one d.sunset d.dusk now
        linarith
      · have := interpolate_nonneg d.sunset d.dusk now
        linarith
    · norm_num
  · intro hpolar
    unfold intensity
    rw [if_neg (by simp), if_pos hpolar]
  · intro hdawnOk hduskOk h1 h2 h3
    have hord : ¬(d.dawnOk = false ∨ d.duskOk = false ∨ d.dusk < d.dawn) := by
      push_neg
      exact ⟨by simp [hdawnOk], by simp [hduskOk], by linarith⟩
    refine ⟨fun h => ?_, fun ha hb => ?_, fun ha hb => ?_, fun ha hb => ?_, fun h => ?_⟩
    · unfold intensity
      rw [if_neg (by simp), if_neg hord, if_pos h]
    · unfold intensity
      rw [if_neg (by simp), if_neg hord, if_neg (by linarith), if_pos hb]
      exact hinterp _ _ _ ha hb
    · unfold intensity
      rw [if_neg (by simp), if_neg hord, if_neg (by linarith), if_neg (by linarith),
        if_pos hb]
    · unfold intensity
      rw [if_neg (by simp), if_neg hord, if_neg (by linarith), if_neg (by linarith),
        if_neg (by linarith), if_pos hb]
      rw [hinterp _ _ _ ha hb]
    · unfold intensity
      rw [if_neg (by simp), if_neg hord, if_neg (by linarith), if_neg (by linarith),
        if_neg (by linarith), if_neg (by linarith)]

/-- A concrete ordinary solar day (times in hours): dawn 6, sunrise 7,
sunset 18, dusk 19, noon altitude 30 degrees. -/
def sampleDay : SolarDay :=
  { dawn := 6, dawnOk := true, sunrise := 7, sunset := 18, dusk := 19,
    duskOk := true, noonAlt := 30 }

/-- Witness for C6: on `sampleDay` at 6:30 the intensity is the dawn ramp
value one half. -/
theorem intensity_spec_witness :
    (sampleDay.dawnOk = true ∧ sampleDay.duskOk = true ∧
      sampleDay.dawn ≤ sampleDay.sunrise ∧ sampleDay.sunrise ≤ sampleDay.sunset ∧
      sampleDay.sunset ≤ sampleDay.dusk ∧
      sampleDay.dawn ≤ (13 / 2 : ℚ) ∧ (13 / 2 : ℚ) < sampleDay.sunrise) ∧
    intensity true sampleDay (13 / 2) =
      ((13 / 2 : ℚ) - sampleDay.dawn) / (sampleDay.sunrise - sampleDay.dawn) :=
  ⟨⟨rfl, rfl, by norm_num [sampleDay], by norm_num [sampleDay], by norm_num [sampleDay],
      by norm_num [sampleDay], by norm_num [sampleDay]⟩,
    ((intensity_spec sampleDay (13 / 2)).2.2 rfl rfl (by norm_num [sampleDay])
        (by norm_num [sampleDay]) (by norm_num [sampleDay])).2.1
      (by norm_num [sampleDay]) (by norm_num [sampleDay])⟩

/-- Game modes from `internal/state` (Easy, Noisy, Crazy). -/
inductive GameMode where
  | easy
  | noisy
  | crazy
deriving DecidableEq, Repr

/-- Night options for Crazy mode from `internal/state`
(never, always, real). -/
inductive NightOption where
  | never
  | always
  | real
deriving DecidableEq, Repr

/-- Source `Floor.FullVisibilityRadius`: the maze diagonal
`int(math.Sqrt(float64(w*w + h*h)))`, modelled by the integer square root
(for grid dimensions the float64 computation is exact enough that both
truncate to the same integer). -/
def fullVisibilityRadius (w h : Nat) : Nat :=
  Nat.sqrt (w * w + h * h)

/-- Source `minFloorVisibilityRadius` from `internal/app`. -/
def minFloorVisibilityRadius : Int := 4

/-- Go `int(q)` conversion for a float value modelled as a rational:
truncation toward zero. -/
def ratTrunc (q : ℚ) : Int :=
  if q < 0 then -Int.floor (-q) else Int.floor q

/-- Source `setFloorVisibility` from `internal/app/app.go`, as the radius value it
assigns: `lit` is the ambient intensity obtained from `ambilite.Intensity`,
`index` the floor index, `w`, `h` the maze dimensions. -/
def setFloorVisibility (mode : GameMode) (night : NightOption) (index : Int)
    (w h : Nat) (lit : ℚ) : Int :=
  match mode with
  | .easy => fullVisibilityRadius w h
  | .noisy => fullVisibilityRadius w h
  | .crazy =>
    match night with
    | .never =>
      if index < 0 then minFloorVisibilityRadius
      else fullVisibilityRadius w h
    | .always => minFloorVisibilityRadius
    | .real =>
      if index < 0 then minFloorVisibilityRadius
      else
        minFloorVisibilityRadius +
          ratTrunc ((((fullVisibilityRadius w h : Int) - minFloorVisibilityRadius : Int) : ℚ) * lit)

/-- C7 counterexample: the "never" night option does not pin the radius
independently of the floor — on the Crazy-mode 41-by-25 maze it yields the
minimum radius 4 on floor -1 but the full diagonal radius 48 on floor 0. -/
theorem setFloorVisibility_never_depends_on_floor :
    setFloorVisibility GameMode.crazy NightOption.never (-1) 41 25 1 = 4 ∧
    setFloorVisibility GameMode.crazy NightOption.never 0 41 25 1 = 48 ∧
    setFloorVisibility GameMode.crazy NightOption.never (-1) 41 25 1 ≠
      setFloorVisibility GameMode.crazy NightOption.never 0 41 25 1 := by
  have h48 : Nat.sqrt 2306 = 48 := by
    have h1 : 48 ≤ Nat.sqrt 2306 := Nat.le_sqrt.2 (by norm_num)
    have h2 : Nat.sqrt 2306 < 49 := Nat.sqrt_lt.2 (by norm_num)
    omega
  refine ⟨rfl, ?_, ?_⟩ <;>
    simp [setFloorVisibility, fullVisibilityRadius, h48, minFloorVisibilityRadius]

/-- The conclusion of the amended claim C7 for floor index `index`, maze
dimensions `w`, `h` and intensity `lit`. -/
def VisibilityClaim (index : Int) (w h : Nat) (lit : ℚ) : Prop :=
  (0 ≤ index →
    setFloorVisibility GameMode.crazy NightOption.real index w h lit =
      minFloorVisibilityRadius +
        ratTrunc ((((fullVisibilityRadius w h : Int) - minFloorVisibilityRadius : Int) : ℚ) * lit)) ∧
  (index < 0 →
    setFloorVisibility GameMode.crazy NightOption.real index w h lit =
      minFloorVisibilityRadius) ∧
  setFloorVisibility GameMode.crazy NightOption.always index w h lit =
    minFloorVisibilityRadius ∧
  (0 ≤ index →
    setFloorVisibility GameMode.crazy NightOption.never index w h lit =
      fullVisibilityRadius w h) ∧
  (index < 0 →
    setFloorVisibility GameMode.crazy NightOption.never index w h lit =
      minFloorVisibilityRadius)

/-- C7 (amended): in Crazy mode with the "real" night option the radius of
an above-ground floor is `minRadius + int((maxRadius - minRadius) *
intensity)` with `minRadius = 4` and `maxRadius` the maze diagonal, while
below-ground floors get the minimum; the "always" option pins the radius
to the minimum unconditionally; the "never" option gives the full radius
above ground but the minimum below ground (so it is not independent of
the floor). -/
theorem setFloorVisibility_spec (index : Int) (w h : Nat) (lit : ℚ) :
    VisibilityClaim index w h lit := by
  refine ⟨fun hi => ?_, fun hi => ?_, rfl, fun hi => ?_, fun hi => ?_⟩ <;>
    simp [setFloorVisibility, not_lt.2, hi]

/-- Witness for C7 on floor 2 of the Crazy 41-by-25 maze at intensity
one half. -/
theorem setFloorVisibility_spec_witness :
    ((0 : Int) ≤ 2 ∧ ¬((2 : Int) < 0)) ∧
    setFloorVisibility GameMode.crazy NightOption.real 2 41 25 (1 / 2) =
      minFloorVisibilityRadius +
        ratTrunc ((((fullVisibilityRadius 41 25 : Int) - minFloorVisibilityRadius : Int) : ℚ) * (1 / 2)) :=
  ⟨⟨by norm_num, by norm_num⟩, (setFloorVisibility_spec 2 41 25 (1 / 2)).1 (by norm_num)⟩

/-- Movement direction from `internal/dweller` (`No, Up, Down, Left,
Right`). -/
inductive Direction where
  | no
  | up
  | down
  | left
  | right
deriving DecidableEq, Repr, Fintype

/-- Coordinates on the map, from `internal/dweller`. -/
structure Position where
  x : Int
  y : Int
deriving DecidableEq, Repr

/-- Source `Position.moveIn`: one step in a direction. -/
def Position.moveIn (p : Position) (d : Direction) : Position :=
  match d with
  | .up => { p with y := p.y - 1 }
  | .down => { p with y := p.y + 1 }
  | .left => { p with x := p.x - 1 }
  | .right => { p with x := p.x + 1 }
  | .no => p

/-- Source `Position.moveInN`: `n` steps in a direction. -/
def Position.moveInN (p : Position) (d : Direction) : Nat → Position
  | 0 => p
  | n + 1 => (p.moveIn d).moveInN d n

/-- Source `vectorTarget`: the point at twice the vector from `from` to `to`. -/
def vectorTarget (a b : Position) : Position :=
  { x := a.x + 2 * (b.x - a.x), y := a.y + 2 * (b.y - a.y) }

/-- Source `manhattan` distance between two positions (dweller package). -/
def manhattan (a b : Position) : Int :=
  goAbs (a.x - b.x) + goAbs (a.y - b.y)

/-- Source `oppositeDirection` from `internal/dweller`. -/
def oppositeDirection (d : Direction) : Direction :=
  match d with
  | .up => .down
  | .down => .up
  | .left => .right
  | .right => .left
  | .no => .no

/-- Ghost behaviour states (`Chase, Scatter, Frightened, Eaten,
Exiting`). -/
inductive GhostState where
  | chase
  | scatter
  | frightened
  | eaten
  | exiting
deriving DecidableEq, Repr

/-- Ghost identities (`Curly, Lofty, Fluffy, Virty`). -/
inductive GhostType where
  | curly
  | lofty
  | fluffy
  | virty
deriving DecidableEq, Repr

/-- The movement-relevant fields of a `dweller.Ghost`. -/
structure Ghost where
  position : Position
  direction : Direction
  state : GhostState
  ghostType : GhostType
  home : Position
  scatterTarget : Position
  exitTarget : Position
deriving DecidableEq, Repr

/-- Source `canMoveTo` from `internal/dweller`: a ghost at `p` may step in
direction `d` when the destination is in bounds, not a wall or crumbling
wall, and not occupied by another ghost; `others` is the list of the other
ghosts' positions (the Go code passes all ghosts and skips the mover by
pointer identity). -/
def canMoveTo (p : Position) (d : Direction) (f : Floor)
    (others : List Position) : Bool :=
  let newPos := p.moveIn d
  match itemAt f newPos.x newPos.y with
  | none => false
  | some tile =>
    if tile = ItemType.wall ∨ tile = ItemType.crumblingWall then false
    else if newPos ∈ others then false
    else true

/-- Source `validDirectionsExcludingOpposite`: the collision-free cardinal
directions except the reverse of the current facing, in the fixed scan
order up, down, left, right. -/
def validDirectionsExcludingOpposite (p : Position) (dir : Direction)
    (f : Floor) (others : List Position) : List Direction :=
  [Direction.up, Direction.down, Direction.left, Direction.right].filter
    fun d => decide (d ≠ oppositeDirection dir) && canMoveTo p d f others

/-- Source `validAllDirections`: all collision-free cardinal directions. -/
def validAllDirections (p : Position) (f : Floor)
    (others : List Position) : List Direction :=
  [Direction.up, Direction.down, Direction.left, Direction.right].filter
    fun d => canMoveTo p d f others

/-- The loop body of `findBestDirections`, threading the running shortest
distance and candidate list exactly as the Go loop does. -/
def findBestAux (pos target : Position) :
    List Direction → Int → List Direction → Int × List Direction
  | [], shortest, cs => (shortest, cs)
  | d :: rest, shortest, cs =>
    let dist := manhattan (pos.moveIn d) target
    if dist < shortest then findBestAux pos target rest dist [d]
    else if dist = shortest then findBestAux pos target rest shortest (cs ++ [d])
    else findBestAux pos target rest shortest cs

/-- Source `findBestDirections` from `internal/dweller`: the valid directions
whose destination minimises the Manhattan distance to the target, with the
running minimum started at `1 << 30`. -/
def findBestDirections (pos target : Position)
    (validDirections : List Direction) : List Direction :=
  (findBestAux pos target validDirections (2 ^ 30) []).2

/-- Source `moveToTarget` from `internal/dweller`: one step toward `target`,
preferring non-reversing directions and falling back to all valid
directions; `rng.Intn n` is modelled by `choice % n`.  Returns the new
position and facing. -/
def moveToTarget (pos : Position) (dir : Direction) (f : Floor)
    (target : Position) (others : List Position) (choice : Nat) :
    Position × Direction :=
  let candidates :=
    findBestDirections pos target (validDirectionsExcludingOpposite pos dir f others)
  let candidates :=
    if candidates.isEmpty then
      findBestDirections pos target (validAllDirections pos f others)
    else candidates
  if candidates.isEmpty then (pos, dir)
  else
    let d := candidates.getD (choice % candidates.length) dir
    (pos.moveIn d, d)

/-- Source `MoveRandom` from `internal/dweller`: a uniformly random valid
direction, avoiding reversal when possible. -/
def moveRandom (pos : Position) (dir : Direction) (f : Floor)
    (others : List Position) (choice : Nat) : Position × Direction :=
  let possible := validDirectionsExcludingOpposite pos dir f others
  let possible :=
    if possible.isEmpty then validAllDirections pos f others else possible
  if possible.isEmpty then (pos, dir)
  else
    let d := possible.getD (choice % possible.length) dir
    (pos.moveIn d, d)

/-- Source `targetPos` from `internal/dweller`: the per-identity chase target
(`ht` is the player position, `htDir` the player facing, `curlyPos` the
lead ghost's position); every non-chase state falls back to the scatter
anchor. -/
def targetPos (g : Ghost) (ht : Position) (htDir : Direction)
    (curlyPos : Position) : Position :=
  match g.state with
  | .chase =>
    match g.ghostType with
    | .curly => ht
    | .fluffy => ht.moveInN htDir 4
    | .lofty => vectorTarget curlyPos (ht.moveInN htDir 2)
    | .virty => if 8 < manhattan g.position ht then ht else g.scatterTarget
  | _ => g.scatterTarget

/-- The per-ghost branch of `MoveGhosts` from `internal/dweller`: one tick
of movement for ghost `g`; `powerMode` is the shared frightened flag and
`released` models `!time.Now().Before(g.releaseTime)`. -/
def ghostStep (g : Ghost) (f : Floor) (others : List Position)
    (powerMode : Bool) (released : Bool) (htPos : Position)
    (htDir : Direction) (curlyPos : Position) (choice : Nat) : Ghost :=
  match g.state with
  | .frightened =>
    let r := moveRandom g.position g.direction f others choice
    { g with position := r.1, direction := r.2 }
  | .eaten =>
    if g.position = g.home then
      if powerMode = false then { g with state := .chase } else g
    else
      let r := moveToTarget g.position g.direction f g.home others choice
      { g with position := r.1, direction := r.2 }
  | .chase =>
    let r := moveToTarget g.position g.direction f
      (targetPos g htPos htDir curlyPos) others choice
    { g with position := r.1, direction := r.2 }
  | .scatter =>
    let r := moveToTarget g.position g.direction f
      (targetPos g htPos htDir curlyPos) others choice
    { g with position := r.1, direction := r.2 }
  | .exiting =>
    if powerMode then g
    else if released = false then g
    else if g.position.x = g.exitTarget.x ∧ goAbs (g.position.y - g.exitTarget.y) ≤ 1 then
      { g with state := .chase }
    else
      let r := moveToTarget g.position g.direction f g.exitTarget others choice
      { g with position := r.1, direction := r.2 }

theorem findBestAux_fst_le (pos target : Position) (l : List Direction)
    (s : Int) (cs : List Direction) :
    (findBestAux pos target l s cs).1 ≤ s := by
  induction l generalizing s cs with
  | nil => simp [findBestAux]
  | cons d rest ih =>
    simp only [findBestAux]
    by_cases h1 : manhattan (pos.moveIn d) target < s
    · rw [if_pos h1]
      exact le_trans (ih _ _) (le_of_lt h1)
    · rw [if_neg h1]
      by_cases h2 : manhattan (pos.moveIn d) target = s
      · rw [if_pos h2]
        exact ih _ _
      · rw [if_neg h2]
        exact ih _ _

theorem findBestAux_fst_le_dist (pos target : Position) (l : List Direction)
    (s : Int) (cs : List Direction) :
    ∀ d ∈ l, (findBestAux pos target l s cs).1 ≤ manhattan (pos.moveIn d) target := by
  induction l generalizing s cs with
  | nil => simp
  | cons e rest ih =>
    intro d hd
    simp only [findBestAux]
    rcases List.mem_cons.1 hd with rfl | hd
    · by_cases h1 : manhattan (pos.moveIn d) target < s
      · rw [if_pos h1]
        exact findBestAux_fst_le pos target rest _ _
      · rw [if_neg h1]
        by_cases h2 : manhattan (pos.moveIn d) target = s
        · rw [if_pos h2]
          exact le_trans (findBestAux_fst_le pos target rest _ _) (le_of_eq h2.symm)
        · rw [if_neg h2]
          exact le_trans (findBestAux_fst_le pos target rest _ _) (by omega)
    · by_cases h1 : manhattan (pos.moveIn e) target < s
      · rw [if_pos h1]
        exact ih _ _ d hd
      · rw [if_neg h1]
        by_cases h2 : manhattan (pos.moveIn e) target = s
        · rw [if_pos h2]
          exact ih _ _ d hd
        · rw [if_neg h2]
          exact ih _ _ d hd

theorem findBestAux_fst_attained (pos target : Position) (l : List Direction)
    (s : Int) (cs : List Direction) :
    (findBestAux pos target l s cs).1 = s ∨
      ∃ d ∈ l, manhattan (pos.moveIn d) target = (findBestAux pos target l s cs).1 := by
  induction l generalizing s cs with
  | nil => exact Or.inl rfl
  | cons e rest ih =>
    simp only [findBestAux]
    by_cases h1 : manhattan (pos.moveIn e) target < s
    · rw [if_pos h1]
      rcases ih (manhattan (pos.moveIn e) target) [e] with h | ⟨d, hd, hdist⟩
      · exact Or.inr ⟨e, List.mem_cons_self _ _, h.symm⟩
      · exact Or.inr ⟨d, List.mem_cons_of_mem _ hd, hdist⟩
    · rw [if_neg h1]
      by_cases h2 : manhattan (pos.moveIn e) target = s
      · rw [if_pos h2]
        rcases ih s (cs ++ [e]) with h | ⟨d, hd, hdist⟩
        · exact Or.inl h
        · exact Or.inr ⟨d, List.mem_cons_of_mem _ hd, hdist⟩
      · rw [if_neg h2]
        rcases ih s cs with h | ⟨d, hd, hdist⟩
        · exact Or.inl h
        · exact Or.inr ⟨d, List.mem_cons_of_mem _ hd, hdist⟩

theorem findBestAux_mem_iff (pos target : Position) (l : List Direction)
    (s : Int) (cs : List Direction)
    (hinv : ∀ c ∈ cs, manhattan (pos.moveIn c) target = s) (x : Direction) :
    x ∈ (findBestAux pos target l s cs).2 ↔
      ((x ∈ cs ∨ x ∈ l) ∧
        manhattan (pos.moveIn x) target = (findBestAux pos target l s cs).1) := by
  induction l generalizing s cs with
  | nil =>
    simp only [findBestAux, List.not_mem_nil, or_false]
    constructor
    · exact fun hx => ⟨hx, hinv x hx⟩
    · exact fun h => h.1
  | cons e rest ih =>
    simp only [findBestAux]
    by_cases h1 : manhattan (pos.moveIn e) target < s
    · rw [if_pos h1]
      have hinv' : ∀ c ∈ [e], manhattan (pos.moveIn c) target =
          manhattan (pos.moveIn e) target := by
        intro c hc
        rw [List.mem_singleton.1 hc]
      rw [ih _ _ hinv']
      have hle := findBestAux_fst_le pos target rest
        (manhattan (pos.moveIn e) target) [e]
      constructor
      · rintro ⟨hmem, hdist⟩
        refine ⟨?_, hdist⟩
        rcases hmem with hmem | hmem
        · exact Or.inr (List.mem_cons.2 (Or.inl (List.mem_singleton.1 hmem)))
        · exact Or.inr (List.mem_cons.2 (Or.inr hmem))
      · rintro ⟨hmem, hdist⟩
        refine ⟨?_, hdist⟩
        rcases hmem with hmem | hmem
        · have := hinv x hmem
          omega
        · rcases List.mem_cons.1 hmem with rfl | hmem
          · exact Or.inl (List.mem_singleton.2 rfl)
          · exact Or.inr hmem
    · rw [if_neg h1]
      by_cases h2 : manhattan (pos.moveIn e) target = s
      · rw [if_pos h2]
        have hinv' : ∀ c ∈ cs ++ [e], manhattan (pos.moveIn c) target = s := by
          intro c hc
          rcases List.mem_append.1 hc with hc | hc
          · exact hinv c hc
          · rw [List.mem_singleton.1 hc]
            exact h2
        rw [ih _ _ hinv']
        constructor
        · rintro ⟨hmem, hdist⟩
          refine ⟨?_, hdist⟩
          rcases hmem with hmem | hmem
          · rcases List.mem_append.1 hmem with hmem | hmem
            · exact Or.inl hmem
            · exact Or.inr (List.mem_cons.2 (Or.inl (List.mem_singleton.1 hmem)))
          · exact Or.inr (List.mem_cons.2 (Or.inr hmem))
        · rintro ⟨hmem, hdist⟩
          refine ⟨?_, hdist⟩
          rcases hmem with hmem | hmem
          · exact Or.inl (List.mem_append.2 (Or.inl hmem))
          · rcases List.mem_cons.1 hmem with rfl | hmem
            · exact Or.inl (List.mem_append.2 (Or.inr (List.mem_singleton.2 rfl)))
            · exact Or.inr hmem
      · rw [if_neg h2]
        rw [ih _ _ hinv]
        have hle := findBestAux_fst_le pos target rest s cs
        constructor
        · rintro ⟨hmem, hdist⟩
          refine ⟨?_, hdist⟩
          rcases hmem with hmem | hmem
          · exact Or.inl hmem
          · exact Or.inr (List.mem_cons.2 (Or.inr hmem))
        · rintro ⟨hmem, hdist⟩
          refine ⟨?_, hdist⟩
          rcases hmem with hmem | hmem
          · exact Or.inl hmem
          · rcases List.mem_cons.1 hmem with rfl | hmem
            · omega
            · exact Or.inr hmem

theorem mem_findBestDirections_iff (pos target : Position)
    (vd : List Direction) (x : Direction) :
    x ∈ findBestDirections pos target vd ↔
      (x ∈ vd ∧ manhattan (pos.moveIn x) target =
        (findBestAux pos target vd (2 ^ 30) []).1) := by
  unfold findBestDirections
  rw [findBestAux_mem_iff pos target vd (2 ^ 30) [] (by simp) x]
  simp

theorem canMoveTo_true_iff (p : Position) (d : Direction) (f : Floor)
    (others : List Position) :
    canMoveTo p d f others = true ↔
      ((∃ t, itemAt f (p.moveIn d).x (p.moveIn d).y = some t ∧
          t ≠ ItemType.wall ∧ t ≠ ItemType.crumblingWall) ∧
        p.moveIn d ∉ others) := by
  simp only [canMoveTo]
  cases hit : itemAt f (p.moveIn d).x (p.moveIn d).y with
  | none => simp
  | some t =>
    simp only
    by_cases hw : t = ItemType.wall ∨ t = ItemType.crumblingWall
    · rw [if_pos hw]
      simp only [Bool.false_eq_true, false_iff]
      rintro ⟨⟨u, hu, hw1, hw2⟩, _⟩
      rw [Option.some_inj] at hu
      subst hu
      tauto
    · rw [if_neg hw]
      by_cases hm : p.moveIn d ∈ others
      · rw [if_pos hm]
        simp [hm]
      · rw [if_neg hm]
        push_neg at hw
        simp only [true_iff]
        exact ⟨⟨t, rfl, hw.1, hw.2⟩, hm⟩

theorem mem_validExcl (p : Position) (dir : Direction) (f : Floor)
    (others : List Position) (d : Direction) :
    d ∈ validDirectionsExcludingOpposite p dir f others →
      d ≠ oppositeDirection dir ∧ canMoveTo p d f others = true := by
  intro hd
  have := List.mem_filter.1 hd
  simp only [Bool.and_eq_true, decide_eq_true_eq] at this
  exact this.2

theorem mem_validAll (p : Position) (f : Floor) (others : List Position)
    (d : Direction) :
    d ∈ validAllDirections p f others → canMoveTo p d f others = true := by
  intro hd
  exact (List.mem_filter.1 hd).2

theorem validExcl_nil (p : Position) (dir : Direction) (f : Floor)
    (others : List Position)
    (h : ∀ d, canMoveTo p d f others = false) :
    validDirectionsExcludingOpposite p dir f others = [] := by
  unfold validDirectionsExcludingOpposite
  simp [h]

theorem validAll_nil (p : Position) (f : Floor) (others : List Position)
    (h : ∀ d, canMoveTo p d f others = false) :
    validAllDirections p f others = [] := by
  unfold validAllDirections
  simp [h]

theorem getD_mod_mem {α : Type} (l : List α) (c : Nat) (dflt : α)
    (h : l ≠ []) : l.getD (c % l.length) dflt ∈ l := by
  have hlen : c % l.length < l.length :=
    Nat.mod_lt _ (List.length_pos.2 h)
  rw [List.getD_eq_getElem?_getD, List.getElem?_eq_getElem hlen]
  exact List.getElem_mem hlen

theorem getD_of_lt {α : Type} (l : List α) (i : Nat) (dflt : α)
    (h : i < l.length) : l.getD (i % l.length) dflt = l[i] := by
  rw [Nat.mod_eq_of_lt h, List.getD_eq_getElem?_getD, List.getElem?_eq_getElem h]
  rfl

theorem moveToTarget_cases (pos : Position) (dir : Direction) (f : Floor)
    (target : Position) (others : List Position) (choice : Nat) :
    moveToTarget pos dir f target others choice = (pos, dir) ∨
      ∃ d, canMoveTo pos d f others = true ∧
        moveToTarget pos dir f target others choice = (pos.moveIn d, d) := by
  unfold moveToTarget
  simp only
  by_cases h1 : (findBestDirections pos target
      (validDirectionsExcludingOpposite pos dir f others)).isEmpty
  · rw [if_pos h1]
    by_cases h2 : (findBestDirections pos target
        (validAllDirections pos f others)).isEmpty
    · rw [if_pos h2]
      exact Or.inl rfl
    · rw [if_neg h2]
      have hne : findBestDirections pos target (validAllDirections pos f others) ≠ [] := by
        simpa [List.isEmpty_iff] using h2
      refine Or.inr ⟨_, ?_, rfl⟩
      have hdm := getD_mod_mem _ choice dir hne
      have hmem := (mem_findBestDirections_iff pos target _ _).1 hdm
      exact mem_validAll _ _ _ _ hmem.1
  · rw [if_neg h1, if_neg h1]
    have hne : findBestDirections pos target
        (validDirectionsExcludingOpposite pos dir f others) ≠ [] := by
      simpa [List.isEmpty_iff] using h1
    refine Or.inr ⟨_, ?_, rfl⟩
    have hdm := getD_mod_mem _ choice dir hne
    have hmem := (mem_findBestDirections_iff pos target _ _).1 hdm
    exact (mem_validExcl _ _ _ _ _ hmem.1).2

theorem moveToTarget_stuck (pos : Position) (dir : Direction) (f : Floor)
    (target : Position) (others : List Position) (choice : Nat)
    (h : ∀ d, canMoveTo pos d f others = false) :
    moveToTarget pos dir f target others choice = (pos, dir) := by
  unfold moveToTarget
  rw [validExcl_nil pos dir f others h, validAll_nil pos f others h]
  simp [findBestDirections, findBestAux]

theorem moveRandom_cases (pos : Position) (dir : Direction) (f : Floor)
    (others : List Position) (choice : Nat) :
    moveRandom pos dir f others choice = (pos, dir) ∨
      ∃ d, canMoveTo pos d f others = true ∧
        moveRandom pos dir f others choice = (pos.moveIn d, d) := by
  unfold moveRandom
  simp only
  by_cases h1 : (validDirectionsExcludingOpposite pos dir f others).isEmpty
  · rw [if_pos h1]
    by_cases h2 : (validAllDirections pos f others).isEmpty
    · rw [if_pos h2]
      exact Or.inl rfl
    · rw [if_neg h2]
      have hne : validAllDirections pos f others ≠ [] := by
        simpa [List.isEmpty_iff] using h2
      refine Or.inr ⟨_, ?_, rfl⟩
      exact mem_validAll _ _ _ _ (getD_mod_mem _ choice dir hne)
  · rw [if_neg h1, if_neg h1]
    have hne : validDirectionsExcludingOpposite pos dir f others ≠ [] := by
      simpa [List.isEmpty_iff] using h1
    refine Or.inr ⟨_, ?_, rfl⟩
    exact (mem_validExcl _ _ _ _ _ (getD_mod_mem _ choice dir hne)).2

theorem moveRandom_stuck (pos : Position) (dir : Direction) (f : Floor)
    (others : List Position) (choice : Nat)
    (h : ∀ d, canMoveTo pos d f others = false) :
    moveRandom pos dir f others choice = (pos, dir) := by
  unfold moveRandom
  rw [validExcl_nil pos dir f others h, validAll_nil pos f others h]
  simp

/-- The conclusion of claim C1 for one tick of one ghost: the step either
leaves the position unchanged or lands on an in-bounds cell that is
neither a wall nor a crumbling wall and is not occupied by another agent;
and when no collision-free move exists at all, the position is unchanged. -/
def GhostStepClaim (g : Ghost) (f : Floor) (others : List Position)
    (powerMode released : Bool) (htPos : Position) (htDir : Direction)
    (curlyPos : Position) (choice : Nat) : Prop :=
  let g' := ghostStep g f others powerMode released htPos htDir curlyPos choice
  (g'.position = g.position ∨
    ((∃ t, itemAt f g'.position.x g'.position.y = some t ∧
        t ≠ ItemType.wall ∧ t ≠ ItemType.crumblingWall) ∧
      g'.position ∉ others)) ∧
  ((∀ d, canMoveTo g.position d f others = false) → g'.position = g.position)

theorem pair_step_safe (g : Ghost) (f : Floor) (others : List Position)
    (r : Position × Direction)
    (caseSplit : r = (g.position, g.direction) ∨
      ∃ d, canMoveTo g.position d f others = true ∧ r = (g.position.moveIn d, d)) :
    r.1 = g.position ∨
      ((∃ t, itemAt f r.1.x r.1.y = some t ∧
          t ≠ ItemType.wall ∧ t ≠ ItemType.crumblingWall) ∧
        r.1 ∉ others) := by
  rcases caseSplit with h | ⟨d, hcan, h⟩
  · rw [h]
    exact Or.inl rfl
  · rw [h]
    exact Or.inr ((canMoveTo_true_iff _ _ _ _).1 hcan)

/-- C1: for every ghost in every state (frightened, eaten, chase, scatter
or exiting), every floor, any other-agent positions not containing the
mover, and any random choice, one movement step never lands on a wall, a
crumbling wall, an out-of-bounds cell, or a cell occupied by another
agent; and when no collision-free move exists the position is unchanged
for that tick. -/
theorem ghostStep_spec (g : Ghost) (f : Floor) (others : List Position)
    (powerMode released : Bool) (htPos : Position) (htDir : Direction)
    (curlyPos : Position) (choice : Nat)
    (hdist : g.position ∉ others) :
    GhostStepClaim g f others powerMode released htPos htDir curlyPos choice := by
  unfold GhostStepClaim
  rcases g with ⟨gpos, gdir, gstate, gtype, ghome, gscatter, gexit⟩
  cases gstate with
  | frightened =>
    simp only [ghostStep]
    constructor
    · exact pair_step_safe ⟨gpos, gdir, .frightened, gtype, ghome, gscatter, gexit⟩
        f others _ (moveRandom_cases gpos gdir f others choice)
    · intro h
      rw [moveRandom_stuck gpos gdir f others choice h]
  | eaten =>
    simp only [ghostStep]
    by_cases hhome : gpos = ghome
    · rw [if_pos hhome]
      by_cases hp : powerMode = false
      · rw [if_pos hp]
        exact ⟨Or.inl rfl, fun _ => rfl⟩
      · rw [if_neg hp]
        exact ⟨Or.inl rfl, fun _ => rfl⟩
    · rw [if_neg hhome]
      constructor
      · exact pair_step_safe ⟨gpos, gdir, .eaten, gtype, ghome, gscatter, gexit⟩
          f others _ (moveToTarget_cases gpos gdir f ghome others choice)
      · intro h
        rw [moveToTarget_stuck gpos gdir f ghome others choice h]
  | chase =>
    simp only [ghostStep]
    constructor
    · exact pair_step_safe ⟨gpos, gdir, .chase, gtype, ghome, gscatter, gexit⟩
        f others _ (moveToTarget_cases gpos gdir f _ others choice)
    · intro h
      rw [moveToTarget_stuck gpos gdir f _ others choice h]
  | scatter =>
    simp only [ghostStep]
    constructor
    · exact pair_step_safe ⟨gpos, gdir, .scatter, gtype, ghome, gscatter, gexit⟩
        f others _ (moveToTarget_cases gpos gdir f _ others choice)
    · intro h
      rw [moveToTarget_stuck gpos gdir f _ others choice h]
  | exiting =>
    simp only [ghostStep]
    by_cases hp : powerMode
    · rw [if_pos hp]
      exact ⟨Or.inl rfl, fun _ => rfl⟩
    · rw [if_neg hp]
      by_cases hr : released = false
      · rw [if_pos hr]
        exact ⟨Or.inl rfl, fun _ => rfl⟩
      · rw [if_neg hr]
        by_cases harr : gpos.x = gexit.x ∧ goAbs (gpos.y - gexit.y) ≤ 1
        · rw [if_pos harr]
          exact ⟨Or.inl rfl, fun _ => rfl⟩
        · rw [if_neg harr]
          constructor
          · exact pair_step_safe ⟨gpos, gdir, .exiting, gtype, ghome, gscatter, gexit⟩
              f others _ (moveToTarget_cases gpos gdir f gexit others choice)
          · intro h
            rw [moveToTarget_stuck gpos gdir f gexit others choice h]

/-- A 3-by-3 floor with an open corridor in its middle row. -/
def openFloor : Floor :=
  { width := 3, height := 3,
    items := [[ItemType.wall, ItemType.wall, ItemType.wall],
              [ItemType.empty, ItemType.empty, ItemType.empty],
              [ItemType.wall, ItemType.wall, ItemType.wall]] }

/-- A chase-state ghost standing at the centre of `openFloor`. -/
def sampleGhost : Ghost :=
  { position := ⟨1, 1⟩, direction := Direction.left,
    state := GhostState.chase, ghostType := GhostType.curly,
    home := ⟨1, 1⟩, scatterTarget := ⟨2, 1⟩, exitTarget := ⟨1, 1⟩ }

/-- Witness for C1: one tick of `sampleGhost` on `openFloor` with another
ghost one cell to the right. -/
theorem ghostStep_spec_witness :
    sampleGhost.position ∉ [Position.mk 2 1] ∧
    GhostStepClaim sampleGhost openFloor [Position.mk 2 1] false true
      ⟨0, 1⟩ Direction.right ⟨1, 1⟩ 0 :=
  ⟨by decide,
    ghostStep_spec sampleGhost openFloor [Position.mk 2 1] false true
      ⟨0, 1⟩ Direction.right ⟨1, 1⟩ 0 (by decide)⟩

theorem findBestDirections_ne_nil (pos target : Position)
    (vd : List Direction) (hvd : vd ≠ [])
    (hb : ∀ d ∈ vd, manhattan (pos.moveIn d) target < 2 ^ 30) :
    findBestDirections pos target vd ≠ [] := by
  obtain ⟨d0, hd0⟩ := List.exists_mem_of_ne_nil vd hvd
  have hle := findBestAux_fst_le_dist pos target vd (2 ^ 30) [] d0 hd0
  rcases findBestAux_fst_attained pos target vd (2 ^ 30) [] with h | ⟨d, hd, hdist⟩
  · exfalso
    have := hb d0 hd0
    omega
  · intro hnil
    have hmem := (mem_findBestDirections_iff pos target vd d).2 ⟨hd, hdist⟩
    rw [hnil] at hmem
    exact absurd hmem (List.not_mem_nil d)

theorem pick_min (pos target : Position) (vd : List Direction)
    (dflt : Direction) (choice : Nat) (hA : findBestDirections pos target vd ≠ []) :
    (findBestDirections pos target vd).getD
        (choice % (findBestDirections pos target vd).length) dflt ∈ vd ∧
      ∀ d ∈ vd,
        manhattan (pos.moveIn ((findBestDirections pos target vd).getD
          (choice % (findBestDirections pos target vd).length) dflt)) target ≤
          manhattan (pos.moveIn d) target := by
  have hdm := getD_mod_mem _ choice dflt hA
  have hmem := (mem_findBestDirections_iff pos target vd _).1 hdm
  refine ⟨hmem.1, fun d hd => ?_⟩
  rw [hmem.2]
  exact findBestAux_fst_le_dist pos target vd (2 ^ 30) [] d hd

theorem min_mem_findBest (pos target : Position) (vd : List Direction)
    (hb : ∀ d ∈ vd, manhattan (pos.moveIn d) target < 2 ^ 30)
    (d : Direction) (hd : d ∈ vd)
    (hmin : ∀ e ∈ vd, manhattan (pos.moveIn d) target ≤ manhattan (pos.moveIn e) target) :
    d ∈ findBestDirections pos target vd := by
  rcases findBestAux_fst_attained pos target vd (2 ^ 30) [] with h | ⟨x, hx, hxdist⟩
  · exfalso
    have h1 := findBestAux_fst_le_dist pos target vd (2 ^ 30) [] d hd
    have := hb d hd
    omega
  · have h1 := findBestAux_fst_le_dist pos target vd (2 ^ 30) [] d hd
    have h2 := hmin x hx
    exact (mem_findBestDirections_iff pos target vd d).2 ⟨hd, by omega⟩

/-- The set of directions `moveToTarget` and `MoveRandom` consider: the
collision-free non-reversing directions, or all collision-free directions
when no non-reversing one exists. -/
def consideredDirections (pos : Position) (dir : Direction) (f : Floor)
    (others : List Position) : List Direction :=
  if (validDirectionsExcludingOpposite pos dir f others).isEmpty then
    validAllDirections pos f others
  else validDirectionsExcludingOpposite pos dir f others

/-- The conclusion of claim C3: the non-reversing valid list really
excludes the reverse and contains only collision-free moves; with no
considered direction the ghost stays put; otherwise the chosen direction
is a considered one whose destination minimises the Manhattan distance to
the target, and every minimiser is chosen for some random draw. -/
def MoveToTargetClaim (pos : Position) (dir : Direction) (f : Floor)
    (target : Position) (others : List Position) : Prop :=
  (∀ d ∈ validDirectionsExcludingOpposite pos dir f others,
    d ≠ oppositeDirection dir ∧ canMoveTo pos d f others = true) ∧
  (consideredDirections pos dir f others = [] →
    ∀ choice, moveToTarget pos dir f target others choice = (pos, dir)) ∧
  (consideredDirections pos dir f others ≠ [] →
    ∀ choice,
      (moveToTarget pos dir f target others choice).2 ∈
          consideredDirections pos dir f others ∧
        (moveToTarget pos dir f target others choice).1 =
          pos.moveIn (moveToTarget pos dir f target others choice).2 ∧
        ∀ d ∈ consideredDirections pos dir f others,
          manhattan (moveToTarget pos dir f target others choice).1 target ≤
            manhattan (pos.moveIn d) target) ∧
  (∀ d ∈ consideredDirections pos dir f others,
    (∀ e ∈ consideredDirections pos dir f others,
      manhattan (pos.moveIn d) target ≤ manhattan (pos.moveIn e) target) →
    ∃ choice, moveToTarget pos dir f target others choice = (pos.moveIn d, d))

/-- C3: when a ghost moves toward a target, the direction is drawn from
the collision-free cardinal directions excluding the reverse of its
facing, the reverse being allowed only when that set is empty (then all
collision-free directions are considered); among the considered
directions the chosen destination's Manhattan distance to the target is
minimal, and each minimiser is the pick for some value of the random
draw.  The hypothesis bounds the step distances by the `1 << 30`
sentinel, which holds for every reachable maze configuration. -/
theorem moveToTarget_spec (pos : Position) (dir : Direction) (f : Floor)
    (target : Position) (others : List Position)
    (hb : ∀ d : Direction, manhattan (pos.moveIn d) target < 2 ^ 30) :
    MoveToTargetClaim pos dir f target others := by
  refine ⟨fun d hd => mem_validExcl _ _ _ _ _ hd, ?_, ?_, ?_⟩
  all_goals
    by_cases hv1 : (validDirectionsExcludingOpposite pos dir f others).isEmpty
  · -- considered = validAll, empty case
    intro hcons choice
    have hv1nil : validDirectionsExcludingOpposite pos dir f others = [] :=
      List.isEmpty_iff.1 hv1
    have hv2nil : validAllDirections pos f others = [] := by
      unfold consideredDirections at hcons
      rwa [if_pos hv1] at hcons
    unfold moveToTarget
    rw [hv1nil, hv2nil]
    simp [findBestDirections, findBestAux]
  · intro hcons choice
    exfalso
    have hv1ne : validDirectionsExcludingOpposite pos dir f others ≠ [] := by
      simpa [List.isEmpty_iff] using hv1
    unfold consideredDirections at hcons
    rw [if_neg hv1] at hcons
    exact hv1ne hcons
  · -- considered = validAll, nonempty case
    intro hcons choice
    have hv1nil : validDirectionsExcludingOpposite pos dir f others = [] :=
      List.isEmpty_iff.1 hv1
    have hcons2 : consideredDirections pos dir f others =
        validAllDirections pos f others := by
      unfold consideredDirections
      rw [if_pos hv1]
    rw [hcons2] at hcons ⊢
    have hB : findBestDirections pos target (validAllDirections pos f others) ≠ [] :=
      findBestDirections_ne_nil pos target _ hcons (fun d _ => hb d)
    have hstep : moveToTarget pos dir f target others choice =
        (pos.moveIn ((findBestDirections pos target (validAllDirections pos f others)).getD
            (choice % (findBestDirections pos target (validAllDirections pos f others)).length) dir),
          (findBestDirections pos target (validAllDirections pos f others)).getD
            (choice % (findBestDirections pos target (validAllDirections pos f others)).length) dir) := by
      unfold moveToTarget
      rw [hv1nil]
      have hAnil : findBestDirections pos target ([] : List Direction) = [] := rfl
      rw [hAnil]
      simp only [List.isEmpty_nil, if_pos]
      rw [if_neg (by simpa [List.isEmpty_iff] using hB)]
    have hp := pick_min pos target (validAllDirections pos f others) dir choice hB
    rw [hstep]
    exact ⟨hp.1, rfl, fun d hd => hp.2 d hd⟩
  · -- considered = validExcl, nonempty case
    intro hcons choice
    have hv1ne : validDirectionsExcludingOpposite pos dir f others ≠ [] := by
      simpa [List.isEmpty_iff] using hv1
    have hcons2 : consideredDirections pos dir f others =
        validDirectionsExcludingOpposite pos dir f others := by
      unfold consideredDirections
      rw [if_neg hv1]
    rw [hcons2]
    have hA : findBestDirections pos target
        (validDirectionsExcludingOpposite pos dir f others) ≠ [] :=
      findBestDirections_ne_nil pos target _ hv1ne (fun d _ => hb d)
    have hstep : moveToTarget pos dir f target others choice =
        (pos.moveIn ((findBestDirections pos target
              (validDirectionsExcludingOpposite pos dir f others)).getD
            (choice % (findBestDirections pos target
              (validDirectionsExcludingOpposite pos dir f others)).length) dir),
          (findBestDirections pos target
              (validDirectionsExcludingOpposite pos dir f others)).getD
            (choice % (findBestDirections pos target
              (validDirectionsExcludingOpposite pos dir f others)).length) dir) := by
      unfold moveToTarget
      simp only
      have hne : ¬(findBestDirections pos target
          (validDirectionsExcludingOpposite pos dir f others)).isEmpty := by
        simpa [List.isEmpty_iff] using hA
      rw [if_neg hne, if_neg hne]
    have hp := pick_min pos target
      (validDirectionsExcludingOpposite pos dir f others) dir choice hA
    rw [hstep]
    exact ⟨hp.1, rfl, fun d hd => hp.2 d hd⟩
  · -- completeness, considered = validAll
    intro d hd hmin
    have hv1nil : validDirectionsExcludingOpposite pos dir f others = [] :=
      List.isEmpty_iff.1 hv1
    have hcons2 : consideredDirections pos dir f others =
        validAllDirections pos f others := by
      unfold consideredDirections
      rw [if_pos hv1]
    rw [hcons2] at hd hmin
    have hv2ne : validAllDirections pos f others ≠ [] :=
      List.ne_nil_of_mem hd
    have hdB : d ∈ findBestDirections pos target (validAllDirections pos f others) :=
      min_mem_findBest pos target _ (fun e _ => hb e) d hd hmin
    obtain ⟨i, hi, hieq⟩ := List.mem_iff_getElem.1 hdB
    refine ⟨i, ?_⟩
    have hB : findBestDirections pos target (validAllDirections pos f others) ≠ [] :=
      List.ne_nil_of_mem hdB
    unfold moveToTarget
    rw [hv1nil]
    have hAnil : findBestDirections pos target ([] : List Direction) = [] := rfl
    rw [hAnil]
    simp only [List.isEmpty_nil, if_pos]
    rw [if_neg (by simpa [List.isEmpty_iff] using hB)]
    rw [getD_of_lt _ i dir hi, hieq]
  · -- completeness, considered = validExcl
    intro d hd hmin
    have hcons2 : consideredDirections pos dir f others =
        validDirectionsExcludingOpposite pos dir f others := by
      unfold consideredDirections
      rw [if_neg hv1]
    rw [hcons2] at hd hmin
    have hv1ne : validDirectionsExcludingOpposite pos dir f others ≠ [] :=
      List.ne_nil_of_mem hd
    have hdA : d ∈ findBestDirections pos target
        (validDirectionsExcludingOpposite pos dir f others) :=
      min_mem_findBest pos target _ (fun e _ => hb e) d hd hmin
    obtain ⟨i, hi, hieq⟩ := List.mem_iff_getElem.1 hdA
    refine ⟨i, ?_⟩
    have hA : findBestDirections pos target
        (validDirectionsExcludingOpposite pos dir f others) ≠ [] :=
      List.ne_nil_of_mem hdA
    unfold moveToTarget
    simp only
    have hne : ¬(findBestDirections pos target
        (validDirectionsExcludingOpposite pos dir f others)).isEmpty := by
      simpa [List.isEmpty_iff] using hA
    rw [if_neg hne, if_neg hne]
    rw [getD_of_lt _ i dir hi, hieq]

/-- Witness for C3 at the centre of `openFloor`, target two cells to the
right. -/
theorem moveToTarget_spec_witness :
    (∀ d : Direction, manhattan (Position.moveIn ⟨1, 1⟩ d) ⟨3, 1⟩ < 2 ^ 30) ∧
    MoveToTargetClaim ⟨1, 1⟩ Direction.left openFloor ⟨3, 1⟩ [] :=
  ⟨by decide,
    moveToTarget_spec ⟨1, 1⟩ Direction.left openFloor ⟨3, 1⟩ [] (by decide)⟩

/-- Source constant `math.MaxInt32`, the initial running minimum in the pellet
placement's distance computation. -/
def maxInt32 : Int := 2 ^ 31 - 1

/-- The candidate scan loop shared by both phases of `placePowerPellets`:
walk the list keeping the first index whose score strictly exceeds the
running best (`bestCandidateIndex`, `maxDist` start at -1 in the Go
code). -/
def bestScan (f : Position → Int) :
    List Position → Int → Int → Int → Int × Int
  | [], _, bi, bv => (bi, bv)
  | p :: rest, i, bi, bv =>
    if bv < f p then bestScan f rest (i + 1) i (f p)
    else bestScan f rest (i + 1) bi bv

/-- Go's removal idiom `candidates[i] = candidates[len-1];
candidates = candidates[:len-1]`. -/
def swapRemove (l : List Position) (i : Nat) : List Position :=
  (l.set i (l.getD (l.length - 1) ⟨0, 0⟩)).dropLast

/-- The minimum Manhattan distance from `c` to the already-chosen pellet
cells, computed as the Go loop does starting from `math.MaxInt32`. -/
def minDistTo (pellets : List Position) (c : Position) : Int :=
  pellets.foldl
    (fun m p => if manhattan c p < m then manhattan c p else m) maxInt32

theorem swapRemove_length (l : List Position) (i : Nat) :
    (swapRemove l i).length = l.length - 1 := by
  simp [swapRemove]

/-- Phase 2 of `placePowerPellets`: greedily extend `chosen` with the
remaining candidate maximising its minimum distance to the chosen cells,
until `requested` pellets are placed or no candidate remains. -/
def placeLoop (requested : Int) (chosen cands : List Position) :
    List Position :=
  if h : (chosen.length : Int) < requested ∧ cands ≠ [] then
    let scan := bestScan (minDistTo chosen) cands 0 (-1) (-1)
    if scan.1 = -1 then chosen
    else
      placeLoop requested (chosen ++ [cands.getD scan.1.toNat ⟨0, 0⟩])
        (swapRemove cands scan.1.toNat)
  else chosen
termination_by cands.length
decreasing_by
  rw [swapRemove_length]
  have := List.length_pos.2 h.2
  omega

/-- The candidate cells of `placePowerPellets`: empty cells outside the
den, scanned row by row; the den test `m.IsInsideDen` lives in the
external maze library and is passed in as an oracle predicate. -/
def pelletCandidates (items : Grid) (insideDen : Position → Bool)
    (w h : Nat) : List Position :=
  (List.range h).flatMap fun y =>
    (List.range w).filterMap fun x =>
      if cellAt items x y = ItemType.empty ∧ insideDen ⟨x, y⟩ = false then
        some ⟨(x : Int), (y : Int)⟩
      else none

/-- The maze centre `Point{X: m.Width() / 2, Y: m.Height() / 2}`. -/
def mazeCenter (w h : Nat) : Position :=
  ⟨((w / 2 : Nat) : Int), ((h / 2 : Nat) : Int)⟩

/-- The ordered list of pellet cells chosen by `placePowerPellets`:
clamp the request to the candidate count, pick the candidate farthest
from the maze centre, then run the greedy `placeLoop`. -/
def pelletLocations (items : Grid) (insideDen : Position → Bool)
    (w h : Nat) (requested : Int) : List Position :=
  let candidates := pelletCandidates items insideDen w h
  if requested ≤ 0 ∨ candidates = [] then []
  else
    let req :=
      if (candidates.length : Int) < requested then (candidates.length : Int)
      else requested
    let firstScan :=
      bestScan (fun p => manhattan p (mazeCenter w h)) candidates 0 (-1) (-1)
    if firstScan.1 = -1 then placeLoop req [] candidates
    else
      placeLoop req [candidates.getD firstScan.1.toNat ⟨0, 0⟩]
        (swapRemove candidates firstScan.1.toNat)

/-- The final write-back of `placePowerPellets`: mark every chosen
location as a power pellet. -/
def writePellets (items : Grid) (locs : List Position) : Grid :=
  locs.foldl
    (fun g p => setCell g p.x.toNat p.y.toNat ItemType.powerPellet) items

/-- Source `placePowerPellets` from `internal/floor/fill.go`: unchanged grid for
a non-positive request or an empty candidate set, otherwise the grid with
the greedily chosen pellet cells written. -/
def placePowerPellets (items : Grid) (insideDen : Position → Bool)
    (w h : Nat) (requested : Int) : Grid :=
  if requested ≤ 0 ∨ pelletCandidates items insideDen w h = [] then items
  else writePellets items (pelletLocations items insideDen w h requested)

theorem bestScan_snd_ge_init (f : Position → Int) (l : List Position)
    (i bi bv : Int) : bv ≤ (bestScan f l i bi bv).2 := by
  induction l generalizing i bi bv with
  | nil => simp [bestScan]
  | cons p rest ih =>
    simp only [bestScan]
    by_cases h : bv < f p
    · rw [if_pos h]
      exact le_trans (le_of_lt h) (ih _ _ _)
    · rw [if_neg h]
      exact ih _ _ _

theorem bestScan_snd_ge (f : Position → Int) (l : List Position)
    (i bi bv : Int) : ∀ p ∈ l, f p ≤ (bestScan f l i bi bv).2 := by
  induction l generalizing i bi bv with
  | nil => simp
  | cons q rest ih =>
    intro p hp
    simp only [bestScan]
    rcases List.mem_cons.1 hp with rfl | hp
    · by_cases h : bv < f p
      · rw [if_pos h]
        exact bestScan_snd_ge_init f rest _ _ _
      · rw [if_neg h]
        exact le_trans (not_lt.1 h) (bestScan_snd_ge_init f rest _ _ _)
    · by_cases h : bv < f q
      · rw [if_pos h]
        exact ih _ _ _ p hp
      · rw [if_neg h]
        exact ih _ _ _ p hp

theorem bestScan_cases (f : Position → Int) (l : List Position)
    (i bi bv : Int) :
    bestScan f l i bi bv = (bi, bv) ∨
      ∃ j : Nat, ∃ hj : j < l.length, (bestScan f l i bi bv).1 = i + j ∧
        f l[j] = (bestScan f l i bi bv).2 := by
  induction l generalizing i bi bv with
  | nil => exact Or.inl rfl
  | cons p rest ih =>
    simp only [bestScan]
    by_cases h : bv < f p
    · rw [if_pos h]
      rcases ih (i + 1) i (f p) with heq | ⟨j, hj, hsum, hval⟩
      · refine Or.inr ⟨0, by simp, ?_, ?_⟩
        · rw [heq]
          simp
        · rw [heq]
          simp
      · refine Or.inr ⟨j + 1, by simpa using hj, ?_, ?_⟩
        · rw [hsum]
          push_cast
          ring
        · simpa using hval
    · rw [if_neg h]
      rcases ih (i + 1) bi bv with heq | ⟨j, hj, hsum, hval⟩
      · exact Or.inl heq
      · refine Or.inr ⟨j + 1, by simpa using hj, ?_, ?_⟩
        · rw [hsum]
          push_cast
          ring
        · simpa using hval

theorem bestScan_pick (f : Position → Int) (l : List Position)
    (hne : l ≠ []) (hf : ∀ p ∈ l, 0 ≤ f p) :
    ∃ j : Nat, ∃ hj : j < l.length, (bestScan f l 0 (-1) (-1)).1 = (j : Int) ∧
      f l[j] = (bestScan f l 0 (-1) (-1)).2 := by
  rcases bestScan_cases f l 0 (-1) (-1) with heq | ⟨j, hj, hsum, hval⟩
  · exfalso
    obtain ⟨p0, hp0⟩ := List.exists_mem_of_ne_nil l hne
    have h1 := bestScan_snd_ge f l 0 (-1) (-1) p0 hp0
    have h2 := hf p0 hp0
    rw [heq] at h1
    simp at h1
    omega
  · exact ⟨j, hj, by rw [hsum]; ring, hval⟩

theorem manhattan_nonneg (a b : Position) : 0 ≤ manhattan a b := by
  unfold manhattan goAbs
  split <;> split <;> omega

theorem minDistTo_foldl_nonneg (c : Position) (l : List Position)
    (acc : Int) (hacc : 0 ≤ acc) :
    0 ≤ l.foldl (fun m p => if manhattan c p < m then manhattan c p else m) acc := by
  induction l generalizing acc with
  | nil => simpa using hacc
  | cons p rest ih =>
    simp only [List.foldl_cons]
    by_cases h : manhattan c p < acc
    · rw [if_pos h]
      exact ih _ (manhattan_nonneg c p)
    · rw [if_neg h]
      exact ih _ hacc

theorem minDistTo_nonneg (pellets : List Position) (c : Position) :
    0 ≤ minDistTo pellets c := by
  unfold minDistTo maxInt32
  exact minDistTo_foldl_nonneg c pellets _ (by norm_num)

theorem minDistTo_foldl_le (c : Position) (l : List Position) (acc : Int) :
    (l.foldl (fun m p => if manhattan c p < m then manhattan c p else m) acc ≤ acc) ∧
    ∀ p ∈ l,
      l.foldl (fun m p => if manhattan c p < m then manhattan c p else m) acc ≤
        manhattan c p := by
  induction l generalizing acc with
  | nil => simp
  | cons q rest ih =>
    simp only [List.foldl_cons]
    by_cases h : manhattan c q < acc
    · rw [if_pos h]
      refine ⟨le_trans (ih (manhattan c q)).1 (le_of_lt h), fun p hp => ?_⟩
      rcases List.mem_cons.1 hp with rfl | hp
      · exact (ih (manhattan c p)).1
      · exact (ih (manhattan c q)).2 p hp
    · rw [if_neg h]
      refine ⟨(ih acc).1, fun p hp => ?_⟩
      rcases List.mem_cons.1 hp with rfl | hp
      · exact le_trans (ih acc).1 (not_lt.1 h)
      · exact (ih acc).2 p hp

/-- The code's running minimum really bounds every distance to a chosen
pellet (and the `MaxInt32` seed). -/
theorem minDistTo_le (pellets : List Position) (c : Position) :
    minDistTo pellets c ≤ maxInt32 ∧
      ∀ p ∈ pellets, minDistTo pellets c ≤ manhattan c p :=
  minDistTo_foldl_le c pellets maxInt32

theorem swapRemove_perm (l : List Position) (j : Nat) (hj : j < l.length) :
    (l[j] :: swapRemove l j).Perm l := by
  induction l generalizing j with
  | nil => simp at hj
  | cons a t ih =>
    cases j with
    | zero =>
      cases t with
      | nil =>
        simp [swapRemove]
      | cons b u =>
        have hlast : (a :: b :: u).getD ((a :: b :: u).length - 1) ⟨0, 0⟩ =
            (b :: u).getD ((b :: u).length - 1) ⟨0, 0⟩ := by
          simp [List.getD]
        simp only [swapRemove, hlast, List.set]
        have hbu : (b :: u) ≠ [] := by simp
        have hsetne : ((b :: u).getD ((b :: u).length - 1) ⟨0, 0⟩ :: b :: u) ≠ [] := by
          simp
        rw [List.dropLast_cons_of_ne_nil hbu]
        have hgl : (b :: u).getD ((b :: u).length - 1) ⟨0, 0⟩ =
            (b :: u).getLast hbu := by
          rw [List.getLast_eq_getElem, List.getD_eq_getElem?_getD,
            List.getElem?_eq_getElem (by simp)]
          rfl
        rw [hgl]
        have h1 : ((b :: u).getLast hbu :: (b :: u).dropLast).Perm (b :: u) := by
          have h2 := List.perm_append_singleton ((b :: u).getLast hbu)
            (b :: u).dropLast
          rw [List.dropLast_append_getLast hbu] at h2
          exact h2.symm
        exact List.Perm.cons a h1
    | succ k =>
      have hk : k < t.length := by simpa using hj
      have htne : t ≠ [] := List.ne_nil_of_length_pos (by omega)
      have hlast : (a :: t).getD ((a :: t).length - 1) ⟨0, 0⟩ =
          t.getD (t.length - 1) ⟨0, 0⟩ := by
        have hlen : (a :: t).length - 1 = (t.length - 1) + 1 := by
          have := List.length_pos.2 htne
          simp only [List.length_cons]
          omega
        rw [hlen]
        rfl
      have hset : (a :: t).set (k + 1) (t.getD (t.length - 1) ⟨0, 0⟩) =
          a :: t.set k (t.getD (t.length - 1) ⟨0, 0⟩) := rfl
      have hsetne : t.set k (t.getD (t.length - 1) ⟨0, 0⟩) ≠ [] := by
        intro hemp
        have hlen0 : t.length = 0 := by simpa using congrArg List.length hemp
        omega
      have hsw : swapRemove (a :: t) (k + 1) = a :: swapRemove t k := by
        unfold swapRemove
        rw [hlast, hset, List.dropLast_cons_of_ne_nil hsetne]
      rw [hsw]
      have hget : (a :: t)[k + 1] = t[k] := by simp
      rw [hget]
      have h1 : (t[k] :: a :: swapRemove t k).Perm (a :: t[k] :: swapRemove t k) :=
        List.Perm.swap a (t[k]) _
      exact h1.trans (List.Perm.cons a (ih k hk))

theorem mem_pelletCandidates (items : Grid) (insideDen : Position → Bool)
    (w h : Nat) (p : Position) :
    p ∈ pelletCandidates items insideDen w h ↔
      ∃ x y : Nat, x < w ∧ y < h ∧ p = ⟨(x : Int), (y : Int)⟩ ∧
        cellAt items x y = ItemType.empty ∧
        insideDen ⟨(x : Int), (y : Int)⟩ = false := by
  unfold pelletCandidates
  simp only [List.mem_flatMap, List.mem_filterMap, List.mem_range]
  constructor
  · rintro ⟨y, hy, x, hx, hopt⟩
    by_cases hc : cellAt items x y = ItemType.empty ∧
        insideDen ⟨(x : Int), (y : Int)⟩ = false
    · rw [if_pos hc, Option.some_inj] at hopt
      exact ⟨x, y, hx, hy, hopt.symm, hc.1, hc.2⟩
    · rw [if_neg hc] at hopt
      exact absurd hopt (by simp)
  · rintro ⟨x, y, hx, hy, rfl, hcell, hden⟩
    exact ⟨y, hy, x, hx, by rw [if_pos ⟨hcell, hden⟩]⟩

theorem mem_pellet_row (items : Grid) (insideDen : Position → Bool)
    (w y : Nat) (b : Position)
    (hb : b ∈ (List.range w).filterMap fun x =>
      if cellAt items x y = ItemType.empty ∧
          insideDen ⟨(x : Int), (y : Int)⟩ = false then
        some (⟨(x : Int), (y : Int)⟩ : Position)
      else none) :
    b.y = (y : Int) := by
  rcases List.mem_filterMap.1 hb with ⟨x, _, hopt⟩
  by_cases hc : cellAt items x y = ItemType.empty ∧
      insideDen ⟨(x : Int), (y : Int)⟩ = false
  · rw [if_pos hc, Option.some_inj] at hopt
    rw [← hopt]
  · rw [if_neg hc] at hopt
    exact absurd hopt (by simp)

theorem pelletCandidates_nodup (items : Grid) (insideDen : Position → Bool)
    (w h : Nat) : (pelletCandidates items insideDen w h).Nodup := by
  unfold pelletCandidates
  rw [List.nodup_flatMap]
  constructor
  · intro y _
    refine List.Nodup.filterMap ?_ (List.nodup_range w)
    intro a a' b hb hb'
    have hmk : ∀ c : Nat, b ∈ (if cellAt items c y = ItemType.empty ∧
        insideDen ⟨(c : Int), (y : Int)⟩ = false then
          some (⟨(c : Int), (y : Int)⟩ : Position) else none) →
        b.x = (c : Int) := by
      intro c hbc
      by_cases hc : cellAt items c y = ItemType.empty ∧
          insideDen ⟨(c : Int), (y : Int)⟩ = false
      · rw [if_pos hc, Option.mem_some_iff] at hbc
        rw [← hbc]
      · rw [if_neg hc] at hbc
        exact absurd hbc (by simp)
    have h1 := hmk a hb
    have h2 := hmk a' hb'
    have : (a : Int) = (a' : Int) := by rw [← h1, ← h2]
    exact_mod_cast this
  · refine (List.pairwise_lt_range h).imp ?_
    intro y y' hyy' b hb hb'
    have h1 := mem_pellet_row items insideDen w y b hb
    have h2 := mem_pellet_row items insideDen w y' b hb'
    rw [h1] at h2
    have : y = y' := by exact_mod_cast h2
    omega

theorem getD_append_cons {α : Type} (l₁ : List α) (a : α) (l₂ : List α)
    (d : α) : (l₁ ++ a :: l₂).getD l₁.length d = a := by
  induction l₁ with
  | nil => rfl
  | cons x t ih => simpa using ih

theorem placeLoop_stop (requested : Int) (chosen cands : List Position)
    (hstop : ¬((chosen.length : Int) < requested ∧ cands ≠ [])) :
    placeLoop requested chosen cands = chosen := by
  unfold placeLoop
  rw [dif_neg hstop]

/-- The invariant carried by the greedy pellet loop: the result extends
`chosen`, draws only from the pool, reaches the clamped requested length,
and each cell appended after position `k` maximises the minimum distance
to the first `k` cells over the pool elements not yet chosen. -/
def PlaceLoopInv (requested : Int) (chosen cands r : List Position) : Prop :=
  (∃ rest, r = chosen ++ rest) ∧
  (∀ p ∈ r, p ∈ chosen ++ cands) ∧
  r.Nodup ∧
  (r.length = min requested.toNat (chosen.length + cands.length)) ∧
  (∀ k : Nat, chosen.length ≤ k → k < r.length →
    ∀ c ∈ chosen ++ cands, c ∉ r.take k →
      minDistTo (r.take k) c ≤ minDistTo (r.take k) (r.getD k ⟨0, 0⟩))

theorem placeLoopInv_stop (requested : Int) (chosen cands : List Position)
    (hnd : (chosen ++ cands).Nodup)
    (hreq : (chosen.length : Int) ≤ requested)
    (hstop : ¬((chosen.length : Int) < requested ∧ cands ≠ [])) :
    PlaceLoopInv requested chosen cands (placeLoop requested chosen cands) := by
  rw [placeLoop_stop requested chosen cands hstop]
  refine ⟨⟨[], by simp⟩, fun p hp => List.mem_append_left _ hp,
    (List.nodup_append.1 hnd).1, ?_, ?_⟩
  · rcases not_and_or.1 hstop with hc | hc
    · have : requested ≤ (chosen.length : Int) := not_lt.1 hc
      omega
    · have : cands = [] := not_not.1 hc
      subst this
      simp only [List.length_nil, Nat.add_zero]
      omega
  · intro k hk1 hk2
    omega

theorem placeLoop_spec (requested : Int) (n : Nat) :
    ∀ cands chosen : List Position, cands.length ≤ n →
      (chosen ++ cands).Nodup → (chosen.length : Int) ≤ requested →
      PlaceLoopInv requested chosen cands (placeLoop requested chosen cands) := by
  induction n with
  | zero =>
    intro cands chosen hlen hnd hreq
    have hc : cands = [] := List.length_eq_zero.1 (by omega)
    subst hc
    exact placeLoopInv_stop requested chosen [] hnd hreq (by simp)
  | succ n ih =>
    intro cands chosen hlen hnd hreq
    by_cases hcond : (chosen.length : Int) < requested ∧ cands ≠ []
    · obtain ⟨j, hj, hj1, hj2⟩ := bestScan_pick (minDistTo chosen) cands hcond.2
        (fun p _ => minDistTo_nonneg chosen p)
      have hnotneg : ¬(bestScan (minDistTo chosen) cands 0 (-1) (-1)).1 = -1 := by
        rw [hj1]
        omega
      have htonat : (bestScan (minDistTo chosen) cands 0 (-1) (-1)).1.toNat = j := by
        rw [hj1]
        omega
      have hgetD : cands.getD (bestScan (minDistTo chosen) cands 0 (-1) (-1)).1.toNat
          ⟨0, 0⟩ = cands[j] := by
        rw [htonat, List.getD_eq_getElem?_getD, List.getElem?_eq_getElem hj]
        rfl
      have hunfold : placeLoop requested chosen cands =
          placeLoop requested (chosen ++ [cands[j]]) (swapRemove cands j) := by
        conv =>
          lhs
          rw [placeLoop]
        rw [dif_pos hcond]
        simp only
        rw [if_neg hnotneg, hgetD, htonat]
      have hperm : ((chosen ++ [cands[j]]) ++ swapRemove cands j).Perm
          (chosen ++ cands) := by
        rw [List.append_assoc]
        exact List.Perm.append_left chosen (swapRemove_perm cands j hj)
      have hnd' : ((chosen ++ [cands[j]]) ++ swapRemove cands j).Nodup :=
        (hperm.nodup_iff).2 hnd
      have hlen' : (swapRemove cands j).length ≤ n := by
        rw [swapRemove_length]
        have := List.length_pos.2 hcond.2
        omega
      have hreq' : (((chosen ++ [cands[j]]).length : Nat) : Int) ≤ requested := by
        simp only [List.length_append, List.length_cons, List.length_nil]
        push_cast
        omega
      have IH := ih (swapRemove cands j) (chosen ++ [cands[j]]) hlen' hnd' hreq'
      rw [hunfold]
      obtain ⟨⟨rest, hrest⟩, hsub, hndr, hlength, hmin⟩ := IH
      have hcl : cands.length = (swapRemove cands j).length + 1 := by
        rw [swapRemove_length]
        have := List.length_pos.2 hcond.2
        omega
      refine ⟨⟨[cands[j]] ++ rest, by rw [hrest, List.append_assoc]⟩,
        fun p hp => (hperm.mem_iff).1 (hsub p hp), hndr, ?_, ?_⟩
      · rw [hlength]
        simp only [List.length_append, List.length_cons, List.length_nil]
        omega
      · intro k hk1 hk2 c hc hcnot
        by_cases hkeq : k = chosen.length
        · subst hkeq
          have hrc : placeLoop requested (chosen ++ [cands[j]]) (swapRemove cands j) =
              chosen ++ (cands[j] :: rest) := by
            rw [hrest, List.append_assoc]
            rfl
          have htake : (placeLoop requested (chosen ++ [cands[j]])
              (swapRemove cands j)).take chosen.length = chosen := by
            rw [hrc]
            exact List.take_left chosen _
          have hgetk : (placeLoop requested (chosen ++ [cands[j]])
              (swapRemove cands j)).getD chosen.length ⟨0, 0⟩ = cands[j] := by
            rw [hrc]
            exact getD_append_cons chosen _ rest _
          rw [htake, hgetk]
          rw [htake] at hcnot
          have hcin : c ∈ cands := by
            rcases List.mem_append.1 hc with hcc | hcc
            · exact absurd hcc hcnot
            · exact hcc
          have := bestScan_snd_ge (minDistTo chosen) cands 0 (-1) (-1) c hcin
          rw [← hj2] at this
          exact this
        · exact hmin k (by simp; omega) hk2 c ((hperm.mem_iff).2 hc) hcnot
    · exact placeLoopInv_stop requested chosen cands hnd hreq hcond

/-- The conclusion of claim C2: `placePowerPellets` leaves the grid
unchanged for a non-positive request or an empty candidate set; every
chosen cell is an in-bounds empty cell outside the den; the chosen cells
are pairwise distinct and their number equals `min requested #candidates`
when the request is positive and a candidate exists; the first chosen
cell maximises the Manhattan distance to the maze centre over all
candidates, and each subsequent chosen cell maximises its minimum
Manhattan distance to the already-chosen cells over the candidates not
yet chosen. -/
def PlacePelletsClaim (items : Grid) (insideDen : Position → Bool)
    (w h : Nat) (requested : Int) : Prop :=
  let cands := pelletCandidates items insideDen w h
  let locs := pelletLocations items insideDen w h requested
  ((requested ≤ 0 ∨ cands = []) →
    placePowerPellets items insideDen w h requested = items) ∧
  (∀ p ∈ locs,
    ∃ x y : Nat, x < w ∧ y < h ∧ p = ⟨(x : Int), (y : Int)⟩ ∧
      cellAt items x y = ItemType.empty ∧
      insideDen ⟨(x : Int), (y : Int)⟩ = false) ∧
  locs.Nodup ∧
  (0 < requested → cands ≠ [] →
    (locs.length : Int) = min requested (cands.length : Int)) ∧
  (0 < requested → cands ≠ [] →
    ∀ c ∈ cands,
      manhattan c (mazeCenter w h) ≤
        manhattan (locs.getD 0 ⟨0, 0⟩) (mazeCenter w h)) ∧
  (∀ k : Nat, 1 ≤ k → k < locs.length →
    ∀ c ∈ cands, c ∉ locs.take k →
      minDistTo (locs.take k) c ≤
        minDistTo (locs.take k) (locs.getD k ⟨0, 0⟩)) ∧
  placePowerPellets items insideDen w h requested =
    (if requested ≤ 0 ∨ cands = [] then items else writePellets items locs)

/-- C2: for every items grid, den predicate, dimensions and request,
`placePowerPellets` places pellets only on empty cells outside the den,
places exactly `min requested #candidates` pellets when the request is
positive and a candidate exists (and none otherwise), chooses first the
candidate farthest (Manhattan) from the maze centre, and chooses each
subsequent cell to maximise its minimum Manhattan distance to the
already-chosen pellet cells over the remaining candidates. -/
theorem placePowerPellets_spec (items : Grid) (insideDen : Position → Bool)
    (w h : Nat) (requested : Int) :
    PlacePelletsClaim items insideDen w h requested := by
  by_cases hstop : requested ≤ 0 ∨ pelletCandidates items insideDen w h = []
  · have hlocs : pelletLocations items insideDen w h requested = [] := by
      unfold pelletLocations
      rw [if_pos hstop]
    have hgrid : placePowerPellets items insideDen w h requested = items := by
      unfold placePowerPellets
      rw [if_pos hstop]
    refine ⟨fun _ => hgrid, ?_, ?_, ?_, ?_, ?_, ?_⟩
    · rw [hlocs]
      intro p hp
      exact absurd hp (List.not_mem_nil p)
    · rw [hlocs]
      exact List.nodup_nil
    · intro hr hc
      exact absurd (not_or.2 ⟨by omega, hc⟩) (fun hno => hno hstop)
    · intro hr hc
      exact absurd (not_or.2 ⟨by omega, hc⟩) (fun hno => hno hstop)
    · rw [hlocs]
      intro k hk1 hk2
      simp at hk2
    · rw [hgrid, if_pos hstop]
  · push_neg at hstop
    obtain ⟨hreqpos, hcne⟩ := hstop
    have hreqpos' : 0 < requested := by omega
    set cands := pelletCandidates items insideDen w h with hcands
    set req : Int :=
      if (cands.length : Int) < requested then (cands.length : Int) else requested
      with hreqdef
    obtain ⟨j, hj, hj1, hj2⟩ :=
      bestScan_pick (fun p => manhattan p (mazeCenter w h)) cands hcne
        (fun p _ => manhattan_nonneg p (mazeCenter w h))
    have hnotneg :
        ¬(bestScan (fun p => manhattan p (mazeCenter w h)) cands 0 (-1) (-1)).1 = -1 := by
      rw [hj1]
      omega
    have htonat :
        (bestScan (fun p => manhattan p (mazeCenter w h)) cands 0 (-1) (-1)).1.toNat = j := by
      rw [hj1]
      omega
    have hgetD :
        cands.getD (bestScan (fun p => manhattan p (mazeCenter w h))
          cands 0 (-1) (-1)).1.toNat ⟨0, 0⟩ = cands[j] := by
      rw [htonat, List.getD_eq_getElem?_getD, List.getElem?_eq_getElem hj]
      rfl
    have hnomatch : ¬(requested ≤ 0 ∨ cands = []) :=
      not_or.2 ⟨by omega, hcne⟩
    have hlocs : pelletLocations items insideDen w h requested =
        placeLoop req [cands[j]] (swapRemove cands j) := by
      unfold pelletLocations
      rw [if_neg hnomatch]
      simp only
      rw [if_neg hnotneg, hgetD, htonat, ← hreqdef]
    have hperm : (([cands[j]] ++ swapRemove cands j)).Perm cands := by
      have := swapRemove_perm cands j hj
      simpa using this
    have hnd : (([cands[j]] ++ swapRemove cands j)).Nodup :=
      (hperm.nodup_iff).2 (pelletCandidates_nodup items insideDen w h)
    have hlen1 : (1 : Int) ≤ req := by
      have hclen := List.length_pos.2 hcne
      rw [hreqdef]
      split <;> omega
    have INV := placeLoop_spec req (swapRemove cands j).length
      (swapRemove cands j) [cands[j]] (le_refl _) hnd (by simpa using hlen1)
    rw [← hlocs] at INV
    obtain ⟨⟨rest, hrest⟩, hsub, hndr, hlength, hmin⟩ := INV
    have hsubc : ∀ p ∈ pelletLocations items insideDen w h requested, p ∈ cands :=
      fun p hp => (hperm.mem_iff).1 (hsub p hp)
    refine ⟨fun hco => absurd hco hnomatch, ?_, hndr, ?_, ?_, ?_, ?_⟩
    · intro p hp
      exact (mem_pelletCandidates items insideDen w h p).1 (hsubc p hp)
    · intro _ _
      rw [← hcands, hlength, swapRemove_length]
      have hclen := List.length_pos.2 hcne
      have hone : ([cands[j]] : List Position).length = 1 := rfl
      rw [hone, hreqdef]
      split <;> omega
    · intro _ _ c hc
      have hhead : (pelletLocations items insideDen w h requested).getD 0 ⟨0, 0⟩ =
          cands[j] := by
        rw [hrest]
        rfl
      rw [hhead]
      have := bestScan_snd_ge (fun p => manhattan p (mazeCenter w h))
        cands 0 (-1) (-1) c hc
      rw [← hj2] at this
      exact this
    · intro k hk1 hk2 c hc hcnot
      exact hmin k (by simpa using hk1) hk2 c ((hperm.mem_iff).2 hc) hcnot
    · rfl

/-- A concrete 3-by-1 grid with empty cells at both ends, used as a
witness input for pellet placement. -/
def pelletItems : Grid := [[ItemType.empty, ItemType.wall, ItemType.empty]]

/-- Witness for C2: requesting two pellets on `pelletItems` (no den)
places exactly `min 2 2 = 2` pellets. -/
theorem placePowerPellets_spec_witness :
    ((0 : Int) < 2 ∧ pelletCandidates pelletItems (fun _ => false) 3 1 ≠ []) ∧
    ((pelletLocations pelletItems (fun _ => false) 3 1 2).length : Int) =
      min 2 ((pelletCandidates pelletItems (fun _ => false) 3 1).length : Int) :=
  ⟨⟨by norm_num, by decide⟩,
    (placePowerPellets_spec pelletItems (fun _ => false) 3 1 2).2.2.2.1
      (by norm_num) (by decide)⟩

end Haunteed
